import Mathlib

/-!
Verification development for a D-Bus-style wire-format codec library
(`dbus-marshal`).  The Rust sources are shallowly embedded: machine
integers are modelled as `Nat` bit patterns with explicit `% 2^w` where
the code narrows, byte buffers as `List Nat`, the memory-span writer as a
list of optionally-initialised bytes, and fallible readers as `Except`.
All definitions follow the source files `src/marshal.rs`,
`src/marshal/writer.rs`, `src/unmarshal.rs`, `src/unmarshal/iter.rs`,
`src/message.rs`, `src/message/serial.rs`, `src/types.rs` and
`src/signature.rs`.
-/

namespace DBus

/-- Alignment rounding, from `lib.rs`: `aligned(size, align) = (size + align - 1)
& !(align - 1)`.  For the power-of-two alignments used by the codec (1, 2, 4, 8)
this equals rounding up to the next multiple, which is how we render it on `Nat`. -/
def alignedN (size align : Nat) : Nat := ((size + align - 1) / align) * align

/-- `align_padding` from `lib.rs`: `aligned(size, align) - size`. -/
def alignPadding (size align : Nat) : Nat := alignedN size align - size

theorem le_alignedN (size align : Nat) (h : 0 < align) : size ≤ alignedN size align := by
  unfold alignedN
  have h1 := Nat.div_add_mod (size + align - 1) align
  have h2 := Nat.mod_lt (size + align - 1) h
  have h3 : ((size + align - 1) / align) * align = align * ((size + align - 1) / align) :=
    Nat.mul_comm _ _
  omega

theorem alignedN_mod (size align : Nat) : alignedN size align % align = 0 :=
  Nat.mul_mod_left _ _

theorem alignedN_idem (size align : Nat) (h : 0 < align) :
    alignedN (alignedN size align) align = alignedN size align := by
  have hm := alignedN_mod size align
  unfold alignedN at *
  set q := (size + align - 1) / align with hq
  have : (q * align + align - 1) / align = q + (align - 1) / align := by
    have h4 : q * align + align - 1 = align - 1 + align * q := by
      have := Nat.mul_comm q align
      omega
    rw [h4, Nat.add_mul_div_left _ _ h, Nat.add_comm]
  rw [this, Nat.div_eq_of_lt (by omega), Nat.add_zero]

theorem alignedN_one (size : Nat) : alignedN size 1 = size := by
  simp [alignedN]

theorem alignPadding_add (size align : Nat) (h : 0 < align) :
    size + alignPadding size align = alignedN size align := by
  have := le_alignedN size align h
  unfold alignPadding
  omega

/-- Little-endian byte image of a bit pattern, `w` bytes wide.  This models
`to_ne_bytes` on a little-endian host, the endianness the library assumes
(`NATIVE_ENDIAN = Endian::Little`, `message.rs`). -/
def leBytes : Nat → Nat → List Nat
  | _, 0 => []
  | n, w + 1 => (n % 256) :: leBytes (n / 256) w

/-- Recover the bit pattern from a little-endian byte image; models
`from_ne_bytes` on a little-endian host (`unmarshal.rs`). -/
def leNat : List Nat → Nat
  | [] => 0
  | b :: bs => b % 256 + 256 * leNat bs

theorem leBytes_length (n w : Nat) : (leBytes n w).length = w := by
  induction w generalizing n with
  | zero => rfl
  | succ w2 ih => simp [leBytes, ih]

theorem leNat_leBytes (n w : Nat) : leNat (leBytes n w) = n % 256 ^ w := by
  induction w generalizing n with
  | zero => simp [leBytes, leNat, Nat.mod_one]
  | succ w ih =>
    have h0 : n % 256 % 256 = n % 256 := Nat.mod_mod_of_dvd n (dvd_refl 256)
    have h1 : n % 256 ^ (w + 1) % 256 = n % 256 :=
      Nat.mod_mod_of_dvd n (dvd_pow_self 256 (Nat.succ_ne_zero w))
    have h2 : n / 256 % 256 ^ w = n % (256 * 256 ^ w) / 256 :=
      (Nat.mod_mul_right_div_self n 256 (256 ^ w)).symm
    have h3 : (256 : Nat) * 256 ^ w = 256 ^ (w + 1) := (Nat.pow_succ' ..).symm
    simp only [leBytes, leNat, ih]
    rw [h0, h2, h3, ← h1, Nat.mod_add_div]

theorem leNat_leBytes_small (n w : Nat) (h : n < 256 ^ w) :
    leNat (leBytes n w) = n := by
  rw [leNat_leBytes, Nat.mod_eq_of_lt h]

/-! ## The signature algebra

Deep embedding of the library's signature-bearing types: the primitive atoms,
the three string kinds, `Variant<T>`, `Entry<K, V>`, `Struct<T>` with its
`Empty`/`Append` constructor chain, and slices `&[T]` (`types.rs`,
`signature.rs`).  `emptyT`/`appendT` are the multi-signature forms; the
others carry a `Signature` instance (a single value). -/

inductive Ty where
  | u8T | boolT | i16T | u16T | i32T | u32T | i64T | u64T | f64T
  | strT | pathT | sigT
  | variantT (inner : Ty)
  | entryT (k v : Ty)
  | emptyT
  | appendT (xs x : Ty)
  | structT (inner : Ty)
  | arrayT (elem : Ty)
  deriving DecidableEq, Repr

/-- `ALIGNMENT` of a single value of the type (`types.rs`, `signature.rs`).
`emptyT`/`appendT` have no `Signature` instance in the source; they are mapped
to 1 and excluded from the positions that require a single type. -/
def Ty.alignment : Ty → Nat
  | .u8T => 1
  | .boolT => 4
  | .i16T => 2
  | .u16T => 2
  | .i32T => 4
  | .u32T => 4
  | .i64T => 8
  | .u64T => 8
  | .f64T => 8
  | .strT => 4
  | .pathT => 4
  | .sigT => 1
  | .variantT _ => 1
  | .entryT _ _ => 8
  | .emptyT => 1
  | .appendT _ _ => 1
  | .structT _ => 8
  | .arrayT _ => 4

theorem Ty.alignment_pos (t : Ty) : 0 < t.alignment := by
  cases t <;> simp [Ty.alignment]

/-- True for the types carrying a `Signature` (single-value) instance; the
bare `Empty`/`Append` chains only have `MultiSignature`. -/
def Ty.single : Ty → Bool
  | .emptyT => false
  | .appendT _ _ => false
  | _ => true

/-- The signature byte string `DATA` of a type, flattened: atoms are single
bytes, `Array<T> = 'a' T`, `DictEntry = '{' K V '}'`, `Struct '(' T ')'`,
`Append` concatenation (`types.rs`, `signature.rs`). -/
def Ty.sigBytes : Ty → List Nat
  | .u8T => [121]
  | .boolT => [98]
  | .i16T => [110]
  | .u16T => [113]
  | .i32T => [105]
  | .u32T => [117]
  | .i64T => [120]
  | .u64T => [116]
  | .f64T => [100]
  | .strT => [115]
  | .pathT => [111]
  | .sigT => [103]
  | .variantT _ => [118]
  | .entryT k v => 123 :: (k.sigBytes ++ v.sigBytes ++ [125])
  | .emptyT => []
  | .appendT xs x => xs.sigBytes ++ x.sigBytes
  | .structT inner => 40 :: (inner.sigBytes ++ [41])
  | .arrayT t => 97 :: t.sigBytes

/-- True when one marshalled value of this type always occupies at least one
byte beyond alignment padding.  Only (nests of) empty structs and entries of
such are zero-sized. -/
def Ty.posSized : Ty → Bool
  | .entryT k v => k.posSized || v.posSized
  | .emptyT => false
  | .appendT xs x => xs.posSized || x.posSized
  | .structT inner => inner.posSized
  | _ => true

/-! ## Values

Mutual inductive of typed values and element lists, mirroring the Rust value
forms that implement `Marshal`/`Unmarshal`.  Numeric payloads are bit
patterns (`Nat`), so an `i64` is its two's-complement image and an `f64` its
IEEE bit image; `to_ne_bytes`/`from_ne_bytes` are bit-preserving so the
embedding is exact. -/

mutual
inductive Value where
  | u8V (n : Nat)
  | boolV (b : Bool)
  | i16V (n : Nat)
  | u16V (n : Nat)
  | i32V (n : Nat)
  | u32V (n : Nat)
  | i64V (n : Nat)
  | u64V (n : Nat)
  | f64V (n : Nat)
  | strV (s : List Nat)
  | pathV (s : List Nat)
  | sigV (s : List Nat)
  | variantV (t : Ty) (v : Value)
  | entryV (k v : Value)
  | emptyV
  | appendV (xs x : Value)
  | structV (inner : Value)
  | arrayV (elem : Ty) (elems : ValueList)

inductive ValueList where
  | nil
  | cons (hd : Value) (tl : ValueList)
end

deriving instance DecidableEq for Value
deriving instance DecidableEq for ValueList

/-- Number of elements of a `ValueList`. -/
def ValueList.length : ValueList → Nat
  | .nil => 0
  | .cons _ tl => 1 + tl.length

mutual
/-- Well-typedness of a value at a type, including the numeric-width bounds
that Rust's types enforce statically. -/
def wt : Ty → Value → Bool
  | t, .u8V n => t == .u8T && decide (n < 256)
  | t, .boolV _ => t == .boolT
  | t, .i16V n => t == .i16T && decide (n < 2 ^ 16)
  | t, .u16V n => t == .u16T && decide (n < 2 ^ 16)
  | t, .i32V n => t == .i32T && decide (n < 2 ^ 32)
  | t, .u32V n => t == .u32T && decide (n < 2 ^ 32)
  | t, .i64V n => t == .i64T && decide (n < 2 ^ 64)
  | t, .u64V n => t == .u64T && decide (n < 2 ^ 64)
  | t, .f64V n => t == .f64T && decide (n < 2 ^ 64)
  | t, .strV s => t == .strT && s.all (fun b => decide (b < 256))
  | t, .pathV s => t == .pathT && s.all (fun b => decide (b < 256))
  | t, .sigV s => t == .sigT && s.all (fun b => decide (b < 256))
  | t, .variantV tv v =>
      match t with
      | .variantT ti => decide (tv = ti) && ti.single && wt ti v
      | _ => false
  | t, .entryV kv vv =>
      match t with
      | .entryT kt vt => wt kt kv && wt vt vv
      | _ => false
  | t, .emptyV => t == .emptyT
  | t, .appendV xsv xv =>
      match t with
      | .appendT xst xt => wt xst xsv && wt xt xv
      | _ => false
  | t, .structV iv =>
      match t with
      | .structT it => wt it iv
      | _ => false
  | t, .arrayV tv es =>
      match t with
      | .arrayT et => decide (tv = et) && et.single && wtL et es
      | _ => false

/-- All elements of the list are well-typed at the element type. -/
def wtL : Ty → ValueList → Bool
  | _, .nil => true
  | t, .cons hd tl => wt t hd && wtL t tl
end

example : wt (.arrayT (.entryT .i32T .u8T))
    (.arrayV (.entryT .i32T .u8T)
      (.cons (.entryV (.i32V 2) (.u8V 23)) (.cons (.entryV (.i32V 3) (.u8V 24)) .nil))) = true := by
  decide

/-! ## The writer abstraction

`marshal/writer.rs` has two `Write` instantiations.  The memory span
(`Span`) is modelled as the list of bytes between `begin` and `cursor`:
`position` is the list length; `seek` advances the cursor over
uninitialised memory (`none` entries); `align_to` zero-fills its padding;
`insert` writes little-endian bytes at an earlier position without moving
the cursor.  The size counter (`usize`) is a plain `Nat`. -/

structure W where
  buf : List (Option Nat)
  deriving DecidableEq, Repr

/-- Cursor position of the span writer (`Span::position`, the
`cursor - begin` distance). -/
def W.pos (s : W) : Nat := s.buf.length

/-- The fresh span writer (`Span::new`). -/
def w0 : W := ⟨[]⟩

/-- `Span::write_bytes`: copy the bytes and advance. -/
def wBytes (s : W) (l : List Nat) : W := ⟨s.buf ++ l.map some⟩

/-- `Span::write_byte`. -/
def wByte (s : W) (b : Nat) : W := ⟨s.buf ++ [some b]⟩

/-- `Span::seek`: advance the cursor without writing (skipped memory stays
uninitialised). -/
def wSeek (s : W) (n : Nat) : W := ⟨s.buf ++ List.replicate n none⟩

/-- `Span::align_to`: zero-fill up to the alignment boundary. -/
def wAlign (s : W) (a : Nat) : W := ⟨s.buf ++ List.replicate (alignPadding s.pos a) (some 0)⟩

/-- Write the little-endian image of `v % 2^32` at positions
`[p, p+4)` (`Span::insert` of the `u32` produced by `len as u32`). -/
def wInsertU32 (s : W) (v p : Nat) : W :=
  ⟨((((s.buf.set p (some (v % 256))).set (p + 1) (some (v / 256 % 256))).set
      (p + 2) (some (v / 256 ^ 2 % 256))).set (p + 3) (some (v / 256 ^ 3 % 256)))⟩

/-- Byte at index `i` of the span, if initialised. -/
def W.byteAt (s : W) (i : Nat) : Option Nat := (s.buf.get? i).bind id

/-- The fully-initialised contents of the span, if no byte was skipped
without being back-patched. -/
def W.bytes (s : W) : Option (List Nat) :=
  if s.buf.all Option.isSome then some (s.buf.map (Option.getD · 0)) else none

/-! ## The marshaller

`marshal.rs`, instantiated at the span writer.  Each numeric type aligns to
its own width and emits native-endian bytes; strings are u32-length + bytes
+ NUL; signature blobs are u8-length + bytes + NUL; a variant emits the
signature blob of its type then the value; entries and structs align to 8;
a slice reserves 4 bytes with `skip_aligned(4)`, aligns to the element
alignment, writes the elements, and back-patches the reserved bytes with
the element-payload byte length cast to u32. -/

mutual
def marV : Value → W → W
  | .u8V n, s => wBytes (wAlign s 1) (leBytes n 1)
  | .boolV b, s => wBytes (wAlign (wAlign s 4) 4) (leBytes (cond b 1 0) 4)
  | .i16V n, s => wBytes (wAlign s 2) (leBytes n 2)
  | .u16V n, s => wBytes (wAlign s 2) (leBytes n 2)
  | .i32V n, s => wBytes (wAlign s 4) (leBytes n 4)
  | .u32V n, s => wBytes (wAlign s 4) (leBytes n 4)
  | .i64V n, s => wBytes (wAlign s 8) (leBytes n 8)
  | .u64V n, s => wBytes (wAlign s 8) (leBytes n 8)
  | .f64V n, s => wBytes (wAlign s 8) (leBytes n 8)
  | .strV str, s => wByte (wBytes (wBytes (wAlign s 4) (leBytes (str.length % 2 ^ 32) 4)) str) 0
  | .pathV str, s => wByte (wBytes (wBytes (wAlign s 4) (leBytes (str.length % 2 ^ 32) 4)) str) 0
  | .sigV str, s => wByte (wBytes (wByte s (str.length % 256)) str) 0
  | .variantV t v, s =>
      marV v (wByte (wBytes (wByte s (t.sigBytes.length % 256)) t.sigBytes) 0)
  | .entryV k v, s => marV v (marV k (wAlign s 8))
  | .emptyV, s => s
  | .appendV xs x, s => marV x (marV xs s)
  | .structV inner, s => marV inner (wAlign s 8)
  | .arrayV t elems, s =>
      let s1 := wAlign s 4
      let ipos := s1.pos
      let s2 := wAlign (wSeek s1 4) t.alignment
      let s3 := marVL elems s2
      wInsertU32 s3 (s3.pos - s2.pos) ipos

def marVL : ValueList → W → W
  | .nil, s => s
  | .cons x xs, s => marVL xs (marV x s)
end

/-- Contents of the span writer after marshalling one value into a fresh
buffer, when fully initialised (`marshal::write`, `marshal::marshal`). -/
def marBytes (v : Value) : Option (List Nat) := (marV v w0).bytes

/-! The size-counter writer: the `unsafe impl Write for usize` of
`marshal/writer.rs`.  `position` is the counter itself, `seek`/`write_bytes`
and `write_byte` advance it and `insert` does nothing. -/

mutual
def marC : Value → Nat → Nat
  | .u8V _, c => alignedN c 1 + 1
  | .boolV _, c => alignedN (alignedN c 4) 4 + 4
  | .i16V _, c => alignedN c 2 + 2
  | .u16V _, c => alignedN c 2 + 2
  | .i32V _, c => alignedN c 4 + 4
  | .u32V _, c => alignedN c 4 + 4
  | .i64V _, c => alignedN c 8 + 8
  | .u64V _, c => alignedN c 8 + 8
  | .f64V _, c => alignedN c 8 + 8
  | .strV str, c => alignedN c 4 + 4 + str.length + 1
  | .pathV str, c => alignedN c 4 + 4 + str.length + 1
  | .sigV str, c => c + 1 + str.length + 1
  | .variantV t v, c => marC v (c + 1 + t.sigBytes.length + 1)
  | .entryV k v, c => marC v (marC k (alignedN c 8))
  | .emptyV, c => c
  | .appendV xs x, c => marC x (marC xs c)
  | .structV inner, c => marC inner (alignedN c 8)
  | .arrayV t elems, c => marCL elems (alignedN (alignedN c 4 + 4) t.alignment)

def marCL : ValueList → Nat → Nat
  | .nil, c => c
  | .cons x xs, c => marCL xs (marC x c)
end

/-- `marshal::calc_size`: run the marshaller against the size-counter writer
starting from zero. -/
def calcSize (v : Value) : Nat := marC v 0

example : marBytes (.u16V 1) = some [1, 0] := by decide

example : marBytes (.arrayV .u64T (.cons (.u64V 2) .nil)) =
    some [8, 0, 0, 0, 0, 0, 0, 0, 2, 0, 0, 0, 0, 0, 0, 0] := by decide

example : marBytes (.arrayV (.entryT .i32T .u8T)
      (.cons (.entryV (.i32V 2) (.u8V 23)) (.cons (.entryV (.i32V 3) (.u8V 24)) .nil))) =
    some [13, 0, 0, 0, 0, 0, 0, 0, 2, 0, 0, 0, 23, 0, 0, 0, 3, 0, 0, 0, 24] := by decide

example :
    marBytes (.arrayV (.structT (.appendT (.appendT .emptyT .i32T) .u8T))
      (.cons (.structV (.appendV (.appendV .emptyV (.i32V 2)) (.u8V 23)))
        (.cons (.structV (.appendV (.appendV .emptyV (.i32V 3)) (.u8V 24))) .nil))) =
    some [13, 0, 0, 0, 0, 0, 0, 0, 2, 0, 0, 0, 23, 0, 0, 0, 3, 0, 0, 0, 24] := by decide

example : calcSize (.arrayV .u64T (.cons (.u64V 2) .nil)) = 16 := by decide

/-! ## The reader and the typed unmarshaller

`unmarshal.rs`.  A `Reader` is a byte slice (`begin`), an end bound `len`
and a cursor `count`; operations are bounds-checked except for the
`seek_unchecked` steps the source itself leaves unchecked.  Errors mirror
`unmarshal::Error`; `outOfFuel` is a model artifact marking running out of
recursion fuel (the source's unbounded loops), never reached on the inputs
of the theorems below. -/

inductive Err where
  | signatureInvalidChar
  | unexpectedType
  | invalidEntrySize
  | nestingMismatched
  | notEnoughData
  | invalidHeader
  | unsupportedEndian
  | nestingDepthExceeded
  | modelUnreachable
  | outOfFuel
  deriving DecidableEq, Repr

instance {ε α : Type} [DecidableEq ε] [DecidableEq α] : DecidableEq (Except ε α) := by
  intro a b
  cases a <;> cases b
  case error.error e e' =>
    exact if h : e = e' then .isTrue (by rw [h]) else .isFalse (by simp [h])
  case error.ok e a => exact .isFalse (by simp)
  case ok.error a e => exact .isFalse (by simp)
  case ok.ok a a' =>
    exact if h : a = a' then .isTrue (by rw [h]) else .isFalse (by simp [h])

structure R where
  buf : List Nat
  count : Nat
  len : Nat
  deriving DecidableEq, Repr

/-- `Reader::new` over a whole buffer. -/
def r0 (data : List Nat) : R := ⟨data, 0, data.length⟩

/-- `Reader::remaining`: the suffix between cursor and end bound. -/
def R.remaining (r : R) : List Nat := (r.buf.take r.len).drop r.count

/-- `Reader::seek`: bounds-checked advance; returns the carved sub-reader
(same buffer, end bound at the seek target) and the advanced reader. -/
def rSeek (r : R) (n : Nat) : Except Err (R × R) :=
  if r.count + n > r.len then .error .notEnoughData
  else .ok (⟨r.buf, r.count, r.count + n⟩, ⟨r.buf, r.count + n, r.len⟩)

/-- `Reader::align_to`: advance to the alignment boundary, failing if it
lies past the end bound. -/
def rAlign (r : R) (a : Nat) : Except Err R :=
  if alignedN r.count a > r.len then .error .notEnoughData
  else .ok ⟨r.buf, alignedN r.count a, r.len⟩

/-- `Reader::read_byte`. -/
def rByte (r : R) : Except Err (Nat × R) :=
  match r.remaining.head? with
  | none => .error .notEnoughData
  | some b => .ok (b, ⟨r.buf, r.count + 1, r.len⟩)

/-- `Reader::read_bytes`. -/
def rBytes (r : R) (n : Nat) : Except Err (List Nat × R) :=
  if n ≤ r.remaining.length then .ok (r.remaining.take n, ⟨r.buf, r.count + n, r.len⟩)
  else .error .notEnoughData

/-- The numeric `Unmarshal` instances: align to the width, take the bytes,
reassemble the native-endian value (`impl_unmarshal!`). -/
def rNum (w a : Nat) (r : R) : Except Err (Nat × R) := do
  let r ← rAlign r a
  if w ≤ r.remaining.length then
    .ok (leNat (r.remaining.take w), ⟨r.buf, r.count + w, r.len⟩)
  else .error .notEnoughData

/-- `Reader::next_string_like`: u32 length, carve the body, then the
source's `seek_unchecked(len + 1)` which skips the NUL sentinel without a
bounds check. -/
def nextStringLike (r : R) : Except Err (List Nat × R) := do
  let (n, r) ← rNum 4 4 r
  if n ≤ r.remaining.length then
    .ok (r.remaining.take n, ⟨r.buf, r.count + (n + 1), r.len⟩)
  else .error .notEnoughData

/-- The `&strings::Signature` unmarshal: u8 length, carve, then the
unchecked `seek_unchecked(len + 1)`. -/
def readSigStr (r : R) : Except Err (List Nat × R) := do
  let (n, r) ← rNum 1 1 r
  if n ≤ r.remaining.length then
    .ok (r.remaining.take n, ⟨r.buf, r.count + (n + 1), r.len⟩)
  else .error .notEnoughData

/-- Result of a typed read: one value, or the collected elements of an
array (`ArrayIter` driven to exhaustion). -/
inductive RdOut where
  | one (v : Value)
  | many (vs : ValueList)
  deriving DecidableEq

/-- A typed-read request: `Reader::read::<T>()` for a single type, or the
`ArrayIter` element loop at an element type. -/
inductive RdReq where
  | one (t : Ty)
  | many (t : Ty)

/-- The typed unmarshaller (`unmarshal.rs`), one fuel-indexed function so
that every recursive call is structural on the fuel.  `.one t` performs
`T::unmarshal`; `.many t` is the `ArrayIter` loop: while bytes remain,
align to the element alignment and read one element. -/
def readAny : Nat → RdReq → R → Except Err (RdOut × R)
  | 0, _, _ => .error .outOfFuel
  | fuel + 1, .one t, r =>
    match t with
    | .u8T => do let (n, r) ← rNum 1 1 r; .ok (.one (.u8V n), r)
    | .boolT => do let (n, r) ← rNum 4 4 r; .ok (.one (.boolV (n ≠ 0)), r)
    | .i16T => do let (n, r) ← rNum 2 2 r; .ok (.one (.i16V n), r)
    | .u16T => do let (n, r) ← rNum 2 2 r; .ok (.one (.u16V n), r)
    | .i32T => do let (n, r) ← rNum 4 4 r; .ok (.one (.i32V n), r)
    | .u32T => do let (n, r) ← rNum 4 4 r; .ok (.one (.u32V n), r)
    | .i64T => do let (n, r) ← rNum 8 8 r; .ok (.one (.i64V n), r)
    | .u64T => do let (n, r) ← rNum 8 8 r; .ok (.one (.u64V n), r)
    | .f64T => do let (n, r) ← rNum 8 8 r; .ok (.one (.f64V n), r)
    | .strT => do let (s, r) ← nextStringLike r; .ok (.one (.strV s), r)
    | .pathT => do let (s, r) ← nextStringLike r; .ok (.one (.pathV s), r)
    | .sigT => do let (s, r) ← readSigStr r; .ok (.one (.sigV s), r)
    | .variantT t => do
        let (sg, r) ← readSigStr r
        if sg = t.sigBytes then do
          let (v, r) ← readAny fuel (.one t) r
          match v with
          | .one v => .ok (.one (.variantV t v), r)
          | .many _ => .error .modelUnreachable
        else .error .unexpectedType
    | .entryT k v => do
        let r ← rAlign r 8
        let (kv, r) ← readAny fuel (.one k) r
        let (vv, r) ← readAny fuel (.one v) r
        match kv, vv with
        | .one kv, .one vv => .ok (.one (.entryV kv vv), r)
        | _, _ => .error .modelUnreachable
    | .emptyT => .ok (.one .emptyV, r)
    | .appendT xs x => do
        let (xsv, r) ← readAny fuel (.one xs) r
        let (xv, r) ← readAny fuel (.one x) r
        match xsv, xv with
        | .one xsv, .one xv => .ok (.one (.appendV xsv xv), r)
        | _, _ => .error .modelUnreachable
    | .structT inner => do
        let r ← rAlign r 8
        let (iv, r) ← readAny fuel (.one inner) r
        match iv with
        | .one iv => .ok (.one (.structV iv), r)
        | .many _ => .error .modelUnreachable
    | .arrayT t => do
        let (n, r) ← rNum 4 4 r
        let r ← rAlign r t.alignment
        let (sub, radv) ← rSeek r n
        let (es, _) ← readAny fuel (.many t) sub
        match es with
        | .many es => .ok (.one (.arrayV t es), radv)
        | .one _ => .error .modelUnreachable
  | fuel + 1, .many t, r =>
    if r.remaining.isEmpty then .ok (.many .nil, r)
    else do
      let r ← rAlign r t.alignment
      let (v, r) ← readAny fuel (.one t) r
      let (vs, r) ← readAny fuel (.many t) r
      match v, vs with
      | .one v, .many vs => .ok (.many (.cons v vs), r)
      | _, _ => .error .modelUnreachable

/-- `Reader::read::<T>()` with enough fuel: the typed decode of one value. -/
def readV (fuel : Nat) (t : Ty) (r : R) : Except Err (RdOut × R) :=
  readAny fuel (.one t) r

/-! ## Normal form of the span writer

`marOut v p` is the list of bytes the marshaller deposits when started at
cursor position `p`; the lemma `marV_marOut` below proves that the span
writer's buffer after marshalling is exactly the old buffer followed by
these bytes (every skipped region is back-patched by the matching
`insert`). -/

/-- Zero padding bytes. -/
def zro (n : Nat) : List Nat := List.replicate n 0

mutual
def marOut : Value → Nat → List Nat
  | .u8V n, _ => leBytes n 1
  | .boolV b, p => zro (alignPadding p 4) ++ leBytes (cond b 1 0) 4
  | .i16V n, p => zro (alignPadding p 2) ++ leBytes n 2
  | .u16V n, p => zro (alignPadding p 2) ++ leBytes n 2
  | .i32V n, p => zro (alignPadding p 4) ++ leBytes n 4
  | .u32V n, p => zro (alignPadding p 4) ++ leBytes n 4
  | .i64V n, p => zro (alignPadding p 8) ++ leBytes n 8
  | .u64V n, p => zro (alignPadding p 8) ++ leBytes n 8
  | .f64V n, p => zro (alignPadding p 8) ++ leBytes n 8
  | .strV str, p => zro (alignPadding p 4) ++ leBytes (str.length % 2 ^ 32) 4 ++ str ++ [0]
  | .pathV str, p => zro (alignPadding p 4) ++ leBytes (str.length % 2 ^ 32) 4 ++ str ++ [0]
  | .sigV str, _ => (str.length % 256) :: (str ++ [0])
  | .variantV t v, p =>
      ((t.sigBytes.length % 256) :: (t.sigBytes ++ [0])) ++
        marOut v (p + (2 + t.sigBytes.length))
  | .entryV k v, p =>
      zro (alignPadding p 8) ++
        (marOut k (alignedN p 8) ++
          marOut v (alignedN p 8 + (marOut k (alignedN p 8)).length))
  | .emptyV, _ => []
  | .appendV xs x, p => marOut xs p ++ marOut x (p + (marOut xs p).length)
  | .structV inner, p => zro (alignPadding p 8) ++ marOut inner (alignedN p 8)
  | .arrayV t elems, p =>
      zro (alignPadding p 4) ++
        (leBytes (marOutL elems (alignedN (alignedN p 4 + 4) t.alignment)).length 4 ++
          (zro (alignPadding (alignedN p 4 + 4) t.alignment) ++
            marOutL elems (alignedN (alignedN p 4 + 4) t.alignment)))

def marOutL : ValueList → Nat → List Nat
  | .nil, _ => []
  | .cons x xs, p => marOut x p ++ marOutL xs (p + (marOut x p).length)
end

theorem zro_map_some (n : Nat) : (zro n).map some = List.replicate n (some 0) := by
  simp [zro]

theorem zro_length (n : Nat) : (zro n).length = n := by
  simp [zro]

theorem wAlign_buf (s : W) (a : Nat) :
    (wAlign s a).buf = s.buf ++ (zro (alignPadding s.pos a)).map some := by
  simp [wAlign, zro_map_some]

theorem alignPadding_alignedN (p a : Nat) (h : 0 < a) :
    alignPadding (alignedN p a) a = 0 := by
  unfold alignPadding
  rw [alignedN_idem _ _ h]
  omega

theorem wAlign_pos (s : W) (a : Nat) (h : 0 < a) :
    (wAlign s a).pos = alignedN s.pos a := by
  have h2 := alignPadding_add s.pos a h
  simp only [wAlign, W.pos, List.length_append, List.length_replicate] at *
  omega

theorem pos_of_append {s' s : W} {l : List Nat} (h : s'.buf = s.buf ++ l.map some) :
    s'.pos = s.pos + l.length := by
  simp [W.pos, h]

theorem W.eq_of_buf {a b : W} (h : a.buf = b.buf) : a = b := by
  cases a
  cases b
  simpa using h

theorem wBytes_pos (s : W) (l : List Nat) : (wBytes s l).pos = s.pos + l.length := by
  simp [wBytes, W.pos]

theorem wByte_pos (s : W) (b : Nat) : (wByte s b).pos = s.pos + 1 := by
  simp [wByte, W.pos]

theorem wSeek_pos (s : W) (n : Nat) : (wSeek s n).pos = s.pos + n := by
  simp [wSeek, W.pos]

theorem leBytes_four (v : Nat) :
    leBytes v 4 = [v % 256, v / 256 % 256, v / 256 ^ 2 % 256, v / 256 ^ 3 % 256] := by
  simp [leBytes, Nat.div_div_eq_div_mul]

theorem wInsert_mid (P Q : List (Option Nat)) (v : Nat) :
    wInsertU32 ⟨P ++ (List.replicate 4 (none : Option Nat) ++ Q)⟩ v P.length =
      ⟨P ++ ((leBytes v 4).map some ++ Q)⟩ := by
  have h4 : List.replicate 4 (none : Option Nat) = [none, none, none, none] := rfl
  simp only [wInsertU32, leBytes_four, h4, List.set_append, List.length_append]
  norm_num

theorem marVL_cons (x : Value) (xs : ValueList) (s : W) :
    marVL (.cons x xs) s = marVL xs (marV x s) := rfl

mutual
theorem marV_marOut (v : Value) :
    ∀ (s : W), (marV v s).buf = s.buf ++ (marOut v s.pos).map some := by
  cases v with
  | u8V n =>
    intro s
    simp [marV, marOut, wBytes, wAlign_buf, alignPadding, alignedN_one, zro]
  | boolV b =>
    intro s
    have h0 : alignPadding (wAlign s 4).pos 4 = 0 := by
      rw [wAlign_pos s 4 (by norm_num), alignPadding_alignedN _ _ (by norm_num)]
    rw [marV, wBytes, wAlign_buf (wAlign s 4) 4, h0, wAlign_buf s 4]
    simp only [zro, List.replicate, List.map_nil, List.append_nil, List.append_assoc]
    simp [marOut, zro]
  | i16V n =>
    intro s
    rw [marV, wBytes, wAlign_buf s 2]
    simp [marOut]
  | u16V n =>
    intro s
    rw [marV, wBytes, wAlign_buf s 2]
    simp [marOut]
  | i32V n =>
    intro s
    rw [marV, wBytes, wAlign_buf s 4]
    simp [marOut]
  | u32V n =>
    intro s
    rw [marV, wBytes, wAlign_buf s 4]
    simp [marOut]
  | i64V n =>
    intro s
    rw [marV, wBytes, wAlign_buf s 8]
    simp [marOut]
  | u64V n =>
    intro s
    rw [marV, wBytes, wAlign_buf s 8]
    simp [marOut]
  | f64V n =>
    intro s
    rw [marV, wBytes, wAlign_buf s 8]
    simp [marOut]
  | strV str =>
    intro s
    rw [marV, wByte, wBytes, wBytes, wAlign_buf s 4]
    simp [marOut]
  | pathV str =>
    intro s
    rw [marV, wByte, wBytes, wBytes, wAlign_buf s 4]
    simp [marOut]
  | sigV str =>
    intro s
    rw [marV, wByte, wBytes, wByte]
    simp [marOut]
  | variantV t v =>
    intro s
    have hblob : (wByte (wBytes (wByte s (t.sigBytes.length % 256)) t.sigBytes) 0).buf =
        s.buf ++ (((t.sigBytes.length % 256) :: (t.sigBytes ++ [0])).map some) := by
      rw [wByte, wBytes, wByte]
      simp
    have hpos : (wByte (wBytes (wByte s (t.sigBytes.length % 256)) t.sigBytes) 0).pos =
        s.pos + (2 + t.sigBytes.length) := by
      simp only [W.pos, hblob, List.length_append, List.length_map, List.length_cons]
      simp
      omega
    rw [marV, marV_marOut v, hblob, hpos]
    simp [marOut]
  | entryV k v =>
    intro s
    have h1 : (wAlign s 8).pos = alignedN s.pos 8 := wAlign_pos s 8 (by norm_num)
    have hk := marV_marOut k (wAlign s 8)
    rw [h1] at hk
    have hkp : (marV k (wAlign s 8)).pos =
        alignedN s.pos 8 + (marOut k (alignedN s.pos 8)).length := by
      rw [pos_of_append hk, h1]
    rw [marV, marV_marOut v, hkp, hk, wAlign_buf s 8]
    simp [marOut, h1]
  | emptyV =>
    intro s
    simp [marV, marOut]
  | appendV xs x =>
    intro s
    have hxs := marV_marOut xs s
    have hp : (marV xs s).pos = s.pos + (marOut xs s.pos).length := pos_of_append hxs
    rw [marV, marV_marOut x, hp, hxs]
    simp [marOut]
  | structV inner =>
    intro s
    have h1 : (wAlign s 8).pos = alignedN s.pos 8 := wAlign_pos s 8 (by norm_num)
    rw [marV, marV_marOut inner, wAlign_buf s 8, h1]
    simp [marOut]
  | arrayV t elems =>
    intro s
    have ha := t.alignment_pos
    have h1 : (wAlign s 4).pos = alignedN s.pos 4 := wAlign_pos s 4 (by norm_num)
    have h2 : (wSeek (wAlign s 4) 4).pos = alignedN s.pos 4 + 4 := by
      rw [wSeek_pos, h1]
    have h3 : (wAlign (wSeek (wAlign s 4) 4) t.alignment).pos =
        alignedN (alignedN s.pos 4 + 4) t.alignment := by
      rw [wAlign_pos _ _ ha, h2]
    have hbuf2 : (wAlign (wSeek (wAlign s 4) 4) t.alignment).buf =
        (s.buf ++ (zro (alignPadding s.pos 4)).map some) ++
          (List.replicate 4 (none : Option Nat) ++
            (zro (alignPadding (alignedN s.pos 4 + 4) t.alignment)).map some) := by
      rw [wAlign_buf, h2, wSeek, wAlign_buf s 4]
      simp [wSeek_pos, h1]
    have hes := marVL_marOut elems (wAlign (wSeek (wAlign s 4) 4) t.alignment)
    rw [h3] at hes
    have hesp := pos_of_append hes
    rw [h3] at hesp
    have hlen : (s.buf ++ (zro (alignPadding s.pos 4)).map some).length = alignedN s.pos 4 := by
      have h5 := alignPadding_add s.pos 4 (by norm_num)
      simp only [List.length_append, List.length_map, zro_length, W.pos] at *
      omega
    have hW : marVL elems (wAlign (wSeek (wAlign s 4) 4) t.alignment) =
        (⟨(s.buf ++ (zro (alignPadding s.pos 4)).map some) ++
          (List.replicate 4 (none : Option Nat) ++
            ((zro (alignPadding (alignedN s.pos 4 + 4) t.alignment)).map some ++
              (marOutL elems (alignedN (alignedN s.pos 4 + 4) t.alignment)).map some))⟩ : W) := by
      apply W.eq_of_buf
      rw [hes, hbuf2]
      simp
    rw [marV]
    simp only [hesp, h3, h1]
    rw [show alignedN (alignedN s.pos 4 + 4) t.alignment +
          (marOutL elems (alignedN (alignedN s.pos 4 + 4) t.alignment)).length -
          alignedN (alignedN s.pos 4 + 4) t.alignment =
        (marOutL elems (alignedN (alignedN s.pos 4 + 4) t.alignment)).length by omega]
    have hmid := wInsert_mid (s.buf ++ (zro (alignPadding s.pos 4)).map some)
      ((zro (alignPadding (alignedN s.pos 4 + 4) t.alignment)).map some ++
        (marOutL elems (alignedN (alignedN s.pos 4 + 4) t.alignment)).map some)
      (marOutL elems (alignedN (alignedN s.pos 4 + 4) t.alignment)).length
    rw [hlen] at hmid
    rw [hW, hmid]
    simp [marOut]

theorem marVL_marOut (es : ValueList) :
    ∀ (s : W), (marVL es s).buf = s.buf ++ (marOutL es s.pos).map some := by
  cases es with
  | nil =>
    intro s
    simp [marVL, marOutL]
  | cons x xs =>
    intro s
    have hx := marV_marOut x s
    have hp : (marV x s).pos = s.pos + (marOut x s.pos).length := pos_of_append hx
    rw [marVL_cons, marVL_marOut xs, hp, hx]
    simp [marOutL]
end

theorem marV_pos (v : Value) (s : W) :
    (marV v s).pos = s.pos + (marOut v s.pos).length :=
  pos_of_append (marV_marOut v s)

theorem marVL_pos (es : ValueList) (s : W) :
    (marVL es s).pos = s.pos + (marOutL es s.pos).length :=
  pos_of_append (marVL_marOut es s)

mutual
theorem marC_marOut (v : Value) : ∀ p, marC v p = p + (marOut v p).length := by
  cases v with
  | u8V n =>
    intro p
    simp [marC, marOut, leBytes_length, alignedN_one]
  | boolV b =>
    intro p
    have h := alignPadding_add p 4 (by norm_num)
    simp [marC, marOut, leBytes_length, zro_length, alignedN_idem p 4 (by norm_num)]
    omega
  | i16V n =>
    intro p
    have h := alignPadding_add p 2 (by norm_num)
    simp [marC, marOut, leBytes_length, zro_length]
    omega
  | u16V n =>
    intro p
    have h := alignPadding_add p 2 (by norm_num)
    simp [marC, marOut, leBytes_length, zro_length]
    omega
  | i32V n =>
    intro p
    have h := alignPadding_add p 4 (by norm_num)
    simp [marC, marOut, leBytes_length, zro_length]
    omega
  | u32V n =>
    intro p
    have h := alignPadding_add p 4 (by norm_num)
    simp [marC, marOut, leBytes_length, zro_length]
    omega
  | i64V n =>
    intro p
    have h := alignPadding_add p 8 (by norm_num)
    simp [marC, marOut, leBytes_length, zro_length]
    omega
  | u64V n =>
    intro p
    have h := alignPadding_add p 8 (by norm_num)
    simp [marC, marOut, leBytes_length, zro_length]
    omega
  | f64V n =>
    intro p
    have h := alignPadding_add p 8 (by norm_num)
    simp [marC, marOut, leBytes_length, zro_length]
    omega
  | strV str =>
    intro p
    have h := alignPadding_add p 4 (by norm_num)
    simp [marC, marOut, leBytes_length, zro_length]
    omega
  | pathV str =>
    intro p
    have h := alignPadding_add p 4 (by norm_num)
    simp [marC, marOut, leBytes_length, zro_length]
    omega
  | sigV str =>
    intro p
    simp [marC, marOut]
    omega
  | variantV t v =>
    intro p
    rw [marC, marC_marOut v]
    rw [show p + 1 + t.sigBytes.length + 1 = p + (2 + t.sigBytes.length) by omega]
    simp [marOut]
    omega
  | entryV k v =>
    intro p
    have h := alignPadding_add p 8 (by norm_num)
    rw [marC, marC_marOut v, marC_marOut k]
    simp [marOut, zro_length]
    omega
  | emptyV =>
    intro p
    simp [marC, marOut]
  | appendV xs x =>
    intro p
    rw [marC, marC_marOut x, marC_marOut xs]
    simp [marOut]
    omega
  | structV inner =>
    intro p
    have h := alignPadding_add p 8 (by norm_num)
    rw [marC, marC_marOut inner]
    simp [marOut, zro_length]
    omega
  | arrayV t elems =>
    intro p
    have h4 := alignPadding_add p 4 (by norm_num)
    have hA := alignPadding_add (alignedN p 4 + 4) t.alignment t.alignment_pos
    rw [marC, marCL_marOutL elems]
    simp [marOut, zro_length, leBytes_length]
    omega

theorem marCL_marOutL (es : ValueList) : ∀ p, marCL es p = p + (marOutL es p).length := by
  cases es with
  | nil =>
    intro p
    simp [marCL, marOutL]
  | cons x xs =>
    intro p
    rw [marCL, marCL_marOutL xs, marC_marOut x]
    simp [marOutL]
    omega
end

/-- C2: running the marshaller with the size-counter writer (the `usize`
instantiation of `Write`) and with the memory-span writer (`Span`) produces
identical traversals: from equal starting positions the final count of the
size counter equals the position to which the span writer advances its
cursor, for every marshallable value; hence `calc_size(v)` is exactly the
number of bytes the span writer deposits for `v` into a fresh buffer. -/
theorem C2_size_counter_matches_span :
    (∀ (v : Value) (s : W), marC v s.pos = (marV v s).pos) ∧
      (∀ v : Value, calcSize v = (marV v w0).buf.length) := by
  constructor
  · intro v s
    rw [marV_pos, marC_marOut]
  · intro v
    have h1 := marC_marOut v 0
    have h2 := marV_pos v w0
    simp only [W.pos, w0, List.length_nil] at h2
    calc calcSize v = marC v 0 := rfl
    _ = (marV v w0).buf.length := by rw [h1, show w0 = (⟨[]⟩ : W) from rfl, h2]

/-! ## Side conditions for the round trip

The source narrows every length field (`string.len() as u32`,
`self.as_bytes().len() as _` into a `u8`, `len as u32` for arrays), so the
encoding is only invertible when those lengths fit their fields; and a
non-empty array of zero-sized values (nests of empty structs) marshals to a
zero payload that decodes as empty.  `marOk` is the decidable predicate
collecting exactly these conditions along the marshalling traversal. -/

mutual
def marOk : Value → Nat → Bool
  | .strV s, _ => decide (s.length < 2 ^ 32)
  | .pathV s, _ => decide (s.length < 2 ^ 32)
  | .sigV s, _ => decide (s.length ≤ 255)
  | .variantV t v, p =>
      decide (t.sigBytes.length ≤ 255) && marOk v (p + (2 + t.sigBytes.length))
  | .entryV k v, p =>
      marOk k (alignedN p 8) && marOk v (alignedN p 8 + (marOut k (alignedN p 8)).length)
  | .appendV xs x, p => marOk xs p && marOk x (p + (marOut xs p).length)
  | .structV inner, p => marOk inner (alignedN p 8)
  | .arrayV t es, p =>
      marOkL es (alignedN (alignedN p 4 + 4) t.alignment) &&
        decide ((marOutL es (alignedN (alignedN p 4 + 4) t.alignment)).length < 2 ^ 32) &&
        (match es with | .nil => true | .cons _ _ => t.posSized)
  | _, _ => true

def marOkL : ValueList → Nat → Bool
  | .nil, _ => true
  | .cons x xs, p => marOk x p && marOkL xs (p + (marOut x p).length)
end

/-! `rdFuel` is fuel sufficient for `readAny` to decode the given value. -/

mutual
def rdFuel : Value → Nat
  | .variantV _ v => 1 + rdFuel v
  | .entryV k v => 1 + rdFuel k + rdFuel v
  | .appendV xs x => 1 + rdFuel xs + rdFuel x
  | .structV inner => 1 + rdFuel inner
  | .arrayV _ es => 1 + rdFuelL es
  | _ => 1

def rdFuelL : ValueList → Nat
  | .nil => 1
  | .cons x xs => 1 + rdFuel x + rdFuelL xs
end

/-! Slice bookkeeping for the reader. -/

theorem drop_shift {B out rest : List Nat} {p : Nat} (k : Nat)
    (hd : B.drop p = out ++ rest) (hk : k ≤ out.length) :
    B.drop (p + k) = out.drop k ++ rest := by
  rw [← List.drop_drop, hd, List.drop_append_of_le_length hk]

theorem remaining_len {B : List Nat} {c L : Nat} (h : L ≤ B.length) :
    (R.remaining ⟨B, c, L⟩).length = L - c := by
  simp [R.remaining, List.length_drop, List.length_take]
  omega

theorem remaining_take {B out rest : List Nat} {c L : Nat} (w : Nat)
    (hd : B.drop c = out ++ rest) (hw : w ≤ out.length) (hcw : c + w ≤ L)
    (_hLB : L ≤ B.length) :
    (R.remaining ⟨B, c, L⟩).take w = out.take w := by
  have h1 : R.remaining ⟨B, c, L⟩ = (B.drop c).take (L - c) := by
    simp [R.remaining, List.drop_take]
  rw [h1, List.take_take, hd]
  have hmin : min w (L - c) = w := by omega
  rw [hmin, List.take_append_of_le_length hw]

theorem remaining_isEmpty {B : List Nat} {c L : Nat} (h : L ≤ B.length) :
    (R.remaining ⟨B, c, L⟩).isEmpty = decide (L ≤ c) := by
  have h0 : (R.remaining ⟨B, c, L⟩).isEmpty =
      decide ((R.remaining ⟨B, c, L⟩).length = 0) := by
    cases R.remaining ⟨B, c, L⟩ <;> simp
  rw [h0, remaining_len h]
  by_cases hc : L ≤ c
  · simp [Nat.sub_eq_zero_of_le hc, hc]
  · simp only [hc, decide_eq_false hc, decide_eq_false (by omega : ¬ L - c = 0)]
    simp

/-- Evaluation of a numeric read at a position that holds padding followed
by the little-endian image of `n`. -/
theorem rNum_eval {B out rest : List Nat} {p L : Nat} (w a n : Nat)
    (hd : B.drop p = out ++ rest)
    (hout : out = zro (alignPadding p a) ++ leBytes n w)
    (hn : n < 256 ^ w)
    (hL : p + out.length ≤ L) (hLB : L ≤ B.length) (ha : 0 < a) :
    rNum w a ⟨B, p, L⟩ = .ok (n, ⟨B, p + out.length, L⟩) := by
  have hpad := alignPadding_add p a ha
  have hlen : out.length = alignPadding p a + w := by
    simp [hout, zro_length, leBytes_length]
  have h1 : alignedN p a ≤ L := by omega
  have hd2 : B.drop (alignedN p a) = leBytes n w ++ rest := by
    have h2 := drop_shift (alignPadding p a) hd (by rw [hlen]; omega)
    rw [hout, List.drop_append_of_le_length (by rw [zro_length]),
      show List.drop (alignPadding p a) (zro (alignPadding p a)) = ([] : List Nat) from
        List.drop_eq_nil_of_le (by rw [zro_length]),
      List.nil_append] at h2
    rw [← hpad]
    exact h2
  have hrem : w ≤ (R.remaining ⟨B, alignedN p a, L⟩).length := by
    rw [remaining_len hLB]
    omega
  have htake : (R.remaining ⟨B, alignedN p a, L⟩).take w = leBytes n w := by
    rw [remaining_take w hd2 (by rw [leBytes_length]) (by omega) hLB]
    exact List.take_of_length_le (by rw [leBytes_length])
  unfold rNum
  rw [rAlign, if_neg (by omega : ¬ alignedN p a > L)]
  simp only [bind, Except.bind]
  rw [if_pos hrem, htake, leNat_leBytes_small n w hn]
  have hc : alignedN p a + w = p + out.length := by omega
  rw [hc]

theorem nextStringLike_eval {B out rest str : List Nat} {p L : Nat}
    (hd : B.drop p = out ++ rest)
    (hout : out = zro (alignPadding p 4) ++
      (leBytes (str.length % 2 ^ 32) 4 ++ (str ++ [0])))
    (hsl : str.length < 2 ^ 32)
    (hL : p + out.length ≤ L) (hLB : L ≤ B.length) :
    nextStringLike ⟨B, p, L⟩ = .ok (str, ⟨B, p + out.length, L⟩) := by
  have hout_len : out.length = alignPadding p 4 + 4 + (str.length + 1) := by
    simp [hout, zro_length, leBytes_length]
    omega
  have hd1 : B.drop p =
      (zro (alignPadding p 4) ++ leBytes (str.length % 2 ^ 32) 4) ++
        ((str ++ [0]) ++ rest) := by
    rw [hd, hout]
    simp [List.append_assoc]
  have hpre_len : (zro (alignPadding p 4) ++ leBytes (str.length % 2 ^ 32) 4).length =
      alignPadding p 4 + 4 := by
    simp [zro_length, leBytes_length]
  have hnum := @rNum_eval B _ _ p L 4 4 (str.length % 2 ^ 32) hd1 rfl
    (by have := @Nat.mod_lt str.length (2 ^ 32) (by norm_num); norm_num at this ⊢; omega)
    (by rw [hpre_len]; omega) hLB (by norm_num)
  have hmod : str.length % 2 ^ 32 = str.length := Nat.mod_eq_of_lt hsl
  set p1 := p + (zro (alignPadding p 4) ++ leBytes (str.length % 2 ^ 32) 4).length with hp1
  have hp1v : p1 = p + (alignPadding p 4 + 4) := by rw [hp1, hpre_len]
  have hd2 : B.drop p1 = (str ++ [0]) ++ rest := by
    rw [hp1]
    have h := drop_shift _ hd1 (le_refl _)
    rwa [List.drop_length, List.nil_append] at h
  have hrem : str.length ≤ (R.remaining ⟨B, p1, L⟩).length := by
    rw [remaining_len hLB]
    omega
  have htake : (R.remaining ⟨B, p1, L⟩).take str.length = str := by
    rw [remaining_take str.length hd2 (by simp) (by omega) hLB]
    exact List.take_left str [0]
  unfold nextStringLike
  rw [hnum]
  simp only [bind, Except.bind, hmod]
  rw [if_pos hrem, htake]
  have hc : p1 + (str.length + 1) = p + out.length := by omega
  rw [hc]

theorem readSigStr_eval {B out rest str : List Nat} {p L : Nat}
    (hd : B.drop p = out ++ rest)
    (hout : out = (str.length % 256) :: (str ++ [0]))
    (hsl : str.length ≤ 255)
    (hL : p + out.length ≤ L) (hLB : L ≤ B.length) :
    readSigStr ⟨B, p, L⟩ = .ok (str, ⟨B, p + out.length, L⟩) := by
  have hout_len : out.length = 1 + (str.length + 1) := by
    simp [hout]
    omega
  have hd1 : B.drop p =
      (zro (alignPadding p 1) ++ leBytes (str.length % 256) 1) ++ ((str ++ [0]) ++ rest) := by
    rw [hd, hout]
    simp [zro, alignPadding, alignedN_one, leBytes]
  have hnum := @rNum_eval B _ _ p L 1 1 (str.length % 256) hd1 rfl
    (by have := @Nat.mod_lt str.length 256 (by norm_num); norm_num at this ⊢; omega)
    (by simp [zro_length, leBytes_length, alignPadding, alignedN_one]; omega) hLB (by norm_num)
  have hmod : str.length % 256 = str.length := Nat.mod_eq_of_lt (by omega)
  set p1 := p + (zro (alignPadding p 1) ++ leBytes (str.length % 256) 1).length with hp1
  have hp1v : p1 = p + 1 := by
    rw [hp1]
    simp [zro_length, leBytes_length, alignPadding, alignedN_one]
  have hd2 : B.drop p1 = (str ++ [0]) ++ rest := by
    rw [hp1]
    have h := drop_shift _ hd1 (le_refl _)
    rwa [List.drop_length, List.nil_append] at h
  have hrem : str.length ≤ (R.remaining ⟨B, p1, L⟩).length := by
    rw [remaining_len hLB]
    omega
  have htake : (R.remaining ⟨B, p1, L⟩).take str.length = str := by
    rw [remaining_take str.length hd2 (by simp) (by omega) hLB]
    exact List.take_left str [0]
  unfold readSigStr
  rw [hnum]
  simp only [bind, Except.bind, hmod]
  rw [if_pos hrem, htake]
  have hc : p1 + (str.length + 1) = p + out.length := by omega
  rw [hc]

/-- The alignment the marshaller itself establishes first for each value
form; it coincides with `ALIGNMENT` on single types. -/
def Value.headAlign : Value → Nat
  | .boolV _ => 4
  | .i16V _ => 2
  | .u16V _ => 2
  | .i32V _ => 4
  | .u32V _ => 4
  | .i64V _ => 8
  | .u64V _ => 8
  | .f64V _ => 8
  | .strV _ => 4
  | .pathV _ => 4
  | .entryV _ _ => 8
  | .structV _ => 8
  | .arrayV _ _ => 4
  | _ => 1

theorem headAlign_eq_alignment (t : Ty) (v : Value) (hw : wt t v = true)
    (hs : t.single = true) : t.alignment = v.headAlign := by
  cases v <;> cases t <;> simp_all [wt, Ty.single, Ty.alignment, Value.headAlign]

theorem marOut_headAlign (v : Value) (p : Nat) :
    marOut v p =
      zro (alignPadding p v.headAlign) ++ marOut v (alignedN p v.headAlign) := by
  cases v with
  | u8V n => simp [Value.headAlign, marOut, alignPadding, alignedN_one, zro]
  | boolV b => simp [Value.headAlign, marOut, alignPadding_alignedN, zro]
  | i16V n => simp [Value.headAlign, marOut, alignPadding_alignedN, zro]
  | u16V n => simp [Value.headAlign, marOut, alignPadding_alignedN, zro]
  | i32V n => simp [Value.headAlign, marOut, alignPadding_alignedN, zro]
  | u32V n => simp [Value.headAlign, marOut, alignPadding_alignedN, zro]
  | i64V n => simp [Value.headAlign, marOut, alignPadding_alignedN, zro]
  | u64V n => simp [Value.headAlign, marOut, alignPadding_alignedN, zro]
  | f64V n => simp [Value.headAlign, marOut, alignPadding_alignedN, zro]
  | strV s => simp [Value.headAlign, marOut, alignPadding_alignedN, zro]
  | pathV s => simp [Value.headAlign, marOut, alignPadding_alignedN, zro]
  | sigV s => simp [Value.headAlign, marOut, alignPadding, alignedN_one, zro]
  | variantV t v => simp [Value.headAlign, marOut, alignPadding, alignedN_one, zro]
  | entryV k v =>
    simp [Value.headAlign, marOut, alignPadding_alignedN,
      alignedN_idem p 8 (by norm_num), zro]
  | emptyV => simp [Value.headAlign, marOut, alignPadding, alignedN_one, zro]
  | appendV xs x => simp [Value.headAlign, marOut, alignPadding, alignedN_one, zro]
  | structV inner =>
    simp [Value.headAlign, marOut, alignPadding_alignedN,
      alignedN_idem p 8 (by norm_num), zro]
  | arrayV t elems =>
    simp [Value.headAlign, marOut, alignPadding_alignedN,
      alignedN_idem p 4 (by norm_num), zro]

theorem marOut_posSized (v : Value) :
    ∀ (t : Ty), wt t v = true → t.posSized = true → ∀ p, 0 < (marOut v p).length := by
  cases v with
  | u8V n => intro t _ _ p; simp [marOut, leBytes_length]
  | boolV b => intro t _ _ p; simp [marOut, leBytes_length]
  | i16V n => intro t _ _ p; simp [marOut, leBytes_length]
  | u16V n => intro t _ _ p; simp [marOut, leBytes_length]
  | i32V n => intro t _ _ p; simp [marOut, leBytes_length]
  | u32V n => intro t _ _ p; simp [marOut, leBytes_length]
  | i64V n => intro t _ _ p; simp [marOut, leBytes_length]
  | u64V n => intro t _ _ p; simp [marOut, leBytes_length]
  | f64V n => intro t _ _ p; simp [marOut, leBytes_length]
  | strV s => intro t _ _ p; simp [marOut, leBytes_length]
  | pathV s => intro t _ _ p; simp [marOut, leBytes_length]
  | sigV s => intro t _ _ p; simp [marOut]
  | variantV tv v => intro t _ _ p; simp [marOut]
  | entryV k v =>
    intro t hw hp p
    cases t <;> simp [wt] at hw
    case entryT kt vt =>
      simp only [Ty.posSized, Bool.or_eq_true] at hp
      simp only [marOut, List.length_append, zro_length]
      rcases hp with hp | hp
      · have := marOut_posSized k kt hw.1 hp (alignedN p 8)
        omega
      · have := marOut_posSized v vt hw.2 hp
          (alignedN p 8 + (marOut k (alignedN p 8)).length)
        omega
  | emptyV =>
    intro t hw hp p
    cases t <;> simp [wt] at hw
    case emptyT => simp [Ty.posSized] at hp
  | appendV xs x =>
    intro t hw hp p
    cases t <;> simp [wt] at hw
    case appendT xst xt =>
      simp only [Ty.posSized, Bool.or_eq_true] at hp
      simp only [marOut, List.length_append]
      rcases hp with hp | hp
      · have := marOut_posSized xs xst hw.1 hp p
        omega
      · have := marOut_posSized x xt hw.2 hp (p + (marOut xs p).length)
        omega
  | structV inner =>
    intro t hw hp p
    cases t <;> simp [wt] at hw
    case structT it =>
      simp only [Ty.posSized] at hp
      simp only [marOut, List.length_append, zro_length]
      have := marOut_posSized inner it hw hp (alignedN p 8)
      omega
  | arrayV te elems => intro t _ _ p; simp [marOut, leBytes_length]

theorem drop_chunk {B chunk tail rest : List Nat} {p : Nat}
    (hd : B.drop p = (chunk ++ tail) ++ rest) :
    B.drop (p + chunk.length) = tail ++ rest := by
  have h2 := drop_shift chunk.length hd (by simp)
  rwa [List.drop_left] at h2

theorem drop_pref {B chunk rest : List Nat} {p : Nat}
    (hd : B.drop p = chunk ++ rest) :
    B.drop (p + chunk.length) = rest := by
  have h2 := drop_shift chunk.length hd (le_refl _)
  rwa [List.drop_length, List.nil_append] at h2

theorem wt_u8 {t : Ty} {n : Nat} (hw : wt t (.u8V n) = true) :
    t = .u8T ∧ n < 256 := by
  rw [wt] at hw
  simpa using hw

theorem wt_bool {t : Ty} {b : Bool} (hw : wt t (.boolV b) = true) : t = .boolT := by
  rw [wt] at hw
  simpa using hw

theorem wt_i16 {t : Ty} {n : Nat} (hw : wt t (.i16V n) = true) :
    t = .i16T ∧ n < 2 ^ 16 := by
  rw [wt] at hw
  simpa using hw

theorem wt_u16 {t : Ty} {n : Nat} (hw : wt t (.u16V n) = true) :
    t = .u16T ∧ n < 2 ^ 16 := by
  rw [wt] at hw
  simpa using hw

theorem wt_i32 {t : Ty} {n : Nat} (hw : wt t (.i32V n) = true) :
    t = .i32T ∧ n < 2 ^ 32 := by
  rw [wt] at hw
  simpa using hw

theorem wt_u32 {t : Ty} {n : Nat} (hw : wt t (.u32V n) = true) :
    t = .u32T ∧ n < 2 ^ 32 := by
  rw [wt] at hw
  simpa using hw

theorem wt_i64 {t : Ty} {n : Nat} (hw : wt t (.i64V n) = true) :
    t = .i64T ∧ n < 2 ^ 64 := by
  rw [wt] at hw
  simpa using hw

theorem wt_u64 {t : Ty} {n : Nat} (hw : wt t (.u64V n) = true) :
    t = .u64T ∧ n < 2 ^ 64 := by
  rw [wt] at hw
  simpa using hw

theorem wt_f64 {t : Ty} {n : Nat} (hw : wt t (.f64V n) = true) :
    t = .f64T ∧ n < 2 ^ 64 := by
  rw [wt] at hw
  simpa using hw

theorem wt_str {t : Ty} {s : List Nat} (hw : wt t (.strV s) = true) : t = .strT := by
  rw [wt] at hw
  simp at hw
  exact hw.1

theorem wt_path {t : Ty} {s : List Nat} (hw : wt t (.pathV s) = true) : t = .pathT := by
  rw [wt] at hw
  simp at hw
  exact hw.1

theorem wt_sig {t : Ty} {s : List Nat} (hw : wt t (.sigV s) = true) : t = .sigT := by
  rw [wt] at hw
  simp at hw
  exact hw.1

theorem wt_empty {t : Ty} (hw : wt t .emptyV = true) : t = .emptyT := by
  rw [wt] at hw
  simpa using hw

theorem marOk_headAlign (v : Value) (p : Nat) :
    marOk v (alignedN p v.headAlign) = marOk v p := by
  cases v <;>
    simp [marOk, Value.headAlign, alignedN_one, alignedN_idem _ 4 (by norm_num),
      alignedN_idem _ 8 (by norm_num)]

mutual
theorem read_marOut (v : Value) :
    ∀ (t : Ty) (p L fuel : Nat) (B rest : List Nat),
      wt t v = true → marOk v p = true →
      B.drop p = marOut v p ++ rest →
      p + (marOut v p).length ≤ L → L ≤ B.length →
      rdFuel v ≤ fuel →
      readAny fuel (.one t) ⟨B, p, L⟩ =
        .ok (.one v, ⟨B, p + (marOut v p).length, L⟩) := by
  cases v with
  | u8V n =>
    intro t p L fuel B rest hw hk hd hL hLB hf
    obtain ⟨ht, hn⟩ := wt_u8 hw
    subst ht
    cases fuel with
    | zero => simp [rdFuel] at hf
    | succ f =>
      have hout : marOut (.u8V n) p = zro (alignPadding p 1) ++ leBytes n 1 := by
        simp [marOut, zro, alignPadding, alignedN_one]
      have h := rNum_eval 1 1 n hd hout (by simpa using hn) hL hLB (by norm_num)
      simp only [readAny]
      rw [h]
      simp only [bind, Except.bind]
  | boolV b =>
    intro t p L fuel B rest hw hk hd hL hLB hf
    have ht := wt_bool hw
    subst ht
    cases fuel with
    | zero => simp [rdFuel] at hf
    | succ f =>
      have hout : marOut (.boolV b) p =
          zro (alignPadding p 4) ++ leBytes (cond b 1 0) 4 := by
        simp [marOut]
      have h := rNum_eval 4 4 (cond b 1 0) hd hout
        (by cases b <;> norm_num) hL hLB (by norm_num)
      simp only [readAny]
      rw [h]
      simp only [bind, Except.bind]
      cases b <;> simp
  | i16V n =>
    intro t p L fuel B rest hw hk hd hL hLB hf
    obtain ⟨ht, hn⟩ := wt_i16 hw
    subst ht
    cases fuel with
    | zero => simp [rdFuel] at hf
    | succ f =>
      have hout : marOut (.i16V n) p = zro (alignPadding p 2) ++ leBytes n 2 := by
        simp [marOut]
      have h := rNum_eval 2 2 n hd hout (by norm_num at hn ⊢; omega) hL hLB (by norm_num)
      simp only [readAny]
      rw [h]
      simp only [bind, Except.bind]
  | u16V n =>
    intro t p L fuel B rest hw hk hd hL hLB hf
    obtain ⟨ht, hn⟩ := wt_u16 hw
    subst ht
    cases fuel with
    | zero => simp [rdFuel] at hf
    | succ f =>
      have hout : marOut (.u16V n) p = zro (alignPadding p 2) ++ leBytes n 2 := by
        simp [marOut]
      have h := rNum_eval 2 2 n hd hout (by norm_num at hn ⊢; omega) hL hLB (by norm_num)
      simp only [readAny]
      rw [h]
      simp only [bind, Except.bind]
  | i32V n =>
    intro t p L fuel B rest hw hk hd hL hLB hf
    obtain ⟨ht, hn⟩ := wt_i32 hw
    subst ht
    cases fuel with
    | zero => simp [rdFuel] at hf
    | succ f =>
      have hout : marOut (.i32V n) p = zro (alignPadding p 4) ++ leBytes n 4 := by
        simp [marOut]
      have h := rNum_eval 4 4 n hd hout (by norm_num at hn ⊢; omega) hL hLB (by norm_num)
      simp only [readAny]
      rw [h]
      simp only [bind, Except.bind]
  | u32V n =>
    intro t p L fuel B rest hw hk hd hL hLB hf
    obtain ⟨ht, hn⟩ := wt_u32 hw
    subst ht
    cases fuel with
    | zero => simp [rdFuel] at hf
    | succ f =>
      have hout : marOut (.u32V n) p = zro (alignPadding p 4) ++ leBytes n 4 := by
        simp [marOut]
      have h := rNum_eval 4 4 n hd hout (by norm_num at hn ⊢; omega) hL hLB (by norm_num)
      simp only [readAny]
      rw [h]
      simp only [bind, Except.bind]
  | i64V n =>
    intro t p L fuel B rest hw hk hd hL hLB hf
    obtain ⟨ht, hn⟩ := wt_i64 hw
    subst ht
    cases fuel with
    | zero => simp [rdFuel] at hf
    | succ f =>
      have hout : marOut (.i64V n) p = zro (alignPadding p 8) ++ leBytes n 8 := by
        simp [marOut]
      have h := rNum_eval 8 8 n hd hout (by norm_num at hn ⊢; omega) hL hLB (by norm_num)
      simp only [readAny]
      rw [h]
      simp only [bind, Except.bind]
  | u64V n =>
    intro t p L fuel B rest hw hk hd hL hLB hf
    obtain ⟨ht, hn⟩ := wt_u64 hw
    subst ht
    cases fuel with
    | zero => simp [rdFuel] at hf
    | succ f =>
      have hout : marOut (.u64V n) p = zro (alignPadding p 8) ++ leBytes n 8 := by
        simp [marOut]
      have h := rNum_eval 8 8 n hd hout (by norm_num at hn ⊢; omega) hL hLB (by norm_num)
      simp only [readAny]
      rw [h]
      simp only [bind, Except.bind]
  | f64V n =>
    intro t p L fuel B rest hw hk hd hL hLB hf
    obtain ⟨ht, hn⟩ := wt_f64 hw
    subst ht
    cases fuel with
    | zero => simp [rdFuel] at hf
    | succ f =>
      have hout : marOut (.f64V n) p = zro (alignPadding p 8) ++ leBytes n 8 := by
        simp [marOut]
      have h := rNum_eval 8 8 n hd hout (by norm_num at hn ⊢; omega) hL hLB (by norm_num)
      simp only [readAny]
      rw [h]
      simp only [bind, Except.bind]
  | strV s =>
    intro t p L fuel B rest hw hk hd hL hLB hf
    have ht := wt_str hw
    subst ht
    cases fuel with
    | zero => simp [rdFuel] at hf
    | succ f =>
      rw [marOk] at hk
      have hsl : s.length < 2 ^ 32 := by simpa using hk
      have hout : marOut (.strV s) p = zro (alignPadding p 4) ++
          (leBytes (s.length % 2 ^ 32) 4 ++ (s ++ [0])) := by
        simp [marOut]
      have h := nextStringLike_eval hd hout hsl hL hLB
      simp only [readAny]
      rw [h]
      simp only [bind, Except.bind]
  | pathV s =>
    intro t p L fuel B rest hw hk hd hL hLB hf
    have ht := wt_path hw
    subst ht
    cases fuel with
    | zero => simp [rdFuel] at hf
    | succ f =>
      rw [marOk] at hk
      have hsl : s.length < 2 ^ 32 := by simpa using hk
      have hout : marOut (.pathV s) p = zro (alignPadding p 4) ++
          (leBytes (s.length % 2 ^ 32) 4 ++ (s ++ [0])) := by
        simp [marOut]
      have h := nextStringLike_eval hd hout hsl hL hLB
      simp only [readAny]
      rw [h]
      simp only [bind, Except.bind]
  | sigV s =>
    intro t p L fuel B rest hw hk hd hL hLB hf
    have ht := wt_sig hw
    subst ht
    cases fuel with
    | zero => simp [rdFuel] at hf
    | succ f =>
      rw [marOk] at hk
      have hsl : s.length ≤ 255 := by simpa using hk
      have hout : marOut (.sigV s) p = (s.length % 256) :: (s ++ [0]) := by
        simp [marOut]
      have h := readSigStr_eval hd hout hsl hL hLB
      simp only [readAny]
      rw [h]
      simp only [bind, Except.bind]
  | variantV tv v =>
    intro t p L fuel B rest hw hk hd hL hLB hf
    cases t <;> simp [wt] at hw
    case variantT ti =>
    obtain ⟨⟨htv, hsi⟩, hwv⟩ := hw
    subst htv
    rw [marOk] at hk
    simp only [Bool.and_eq_true, decide_eq_true_eq] at hk
    obtain ⟨hsl, hkv⟩ := hk
    cases fuel with
    | zero => simp [rdFuel] at hf
    | succ f =>
      have hfv : rdFuel v ≤ f := by
        rw [rdFuel] at hf
        omega
      have hblob : ((tv.sigBytes.length % 256) :: (tv.sigBytes ++ [0])).length =
          2 + tv.sigBytes.length := by
        simp
        omega
      have hmo : marOut (.variantV tv v) p =
          ((tv.sigBytes.length % 256) :: (tv.sigBytes ++ [0])) ++
            marOut v (p + (2 + tv.sigBytes.length)) := by
        rw [marOut]
      have hltot : (marOut (.variantV tv v) p).length =
          (2 + tv.sigBytes.length) + (marOut v (p + (2 + tv.sigBytes.length))).length := by
        rw [hmo]
        simp only [List.length_append, hblob]
      rw [hmo] at hd
      have hdsig : B.drop p = ((tv.sigBytes.length % 256) :: (tv.sigBytes ++ [0])) ++
          (marOut v (p + (2 + tv.sigBytes.length)) ++ rest) := by
        rw [hd]
        simp [List.append_assoc]
      have hsig := readSigStr_eval hdsig rfl hsl
        (by rw [hblob]; rw [hltot] at hL; omega) hLB
      rw [hblob] at hsig
      have hdv : B.drop (p + (2 + tv.sigBytes.length)) =
          marOut v (p + (2 + tv.sigBytes.length)) ++ rest := by
        have := @drop_chunk _ ((tv.sigBytes.length % 256) :: (tv.sigBytes ++ [0])) _ _ _ hd
        rwa [hblob] at this
      have hv := read_marOut v tv (p + (2 + tv.sigBytes.length)) L f B rest hwv hkv hdv
        (by rw [hltot] at hL; omega) hLB hfv
      simp only [readAny]
      rw [hsig]
      simp only [bind, Except.bind]
      rw [if_pos trivial, hv]
      simp only [bind, Except.bind]
      rw [hltot]
      rw [show p + ((2 + tv.sigBytes.length) +
        (marOut v (p + (2 + tv.sigBytes.length))).length) =
        p + (2 + tv.sigBytes.length) +
          (marOut v (p + (2 + tv.sigBytes.length))).length by omega]
  | entryV k v =>
    intro t p L fuel B rest hw hk hd hL hLB hf
    cases t <;> simp [wt] at hw
    case entryT kt vt =>
    obtain ⟨hwk, hwv⟩ := hw
    rw [marOk] at hk
    simp only [Bool.and_eq_true] at hk
    obtain ⟨hkk, hkv⟩ := hk
    cases fuel with
    | zero => simp [rdFuel] at hf
    | succ f =>
      have hfk : rdFuel k ≤ f := by
        rw [rdFuel] at hf
        omega
      have hfv : rdFuel v ≤ f := by
        rw [rdFuel] at hf
        omega
      have hpad := alignPadding_add p 8 (by norm_num)
      have hmo : marOut (.entryV k v) p = zro (alignPadding p 8) ++
          (marOut k (alignedN p 8) ++
            marOut v (alignedN p 8 + (marOut k (alignedN p 8)).length)) := by
        rw [marOut]
      have hltot : (marOut (.entryV k v) p).length =
          alignPadding p 8 + ((marOut k (alignedN p 8)).length +
            (marOut v (alignedN p 8 + (marOut k (alignedN p 8)).length)).length) := by
        rw [hmo]
        simp [zro_length]
      rw [hmo] at hd
      have hd1 : B.drop (alignedN p 8) = (marOut k (alignedN p 8) ++
          marOut v (alignedN p 8 + (marOut k (alignedN p 8)).length)) ++ rest := by
        have h2 := @drop_chunk _ (zro (alignPadding p 8)) _ _ _ hd
        rw [zro_length] at h2
        rwa [hpad] at h2
      have hdk : B.drop (alignedN p 8) = marOut k (alignedN p 8) ++
          (marOut v (alignedN p 8 + (marOut k (alignedN p 8)).length) ++ rest) := by
        rw [hd1]
        simp [List.append_assoc]
      have hdv := drop_chunk hd1
      have hk' := read_marOut k kt (alignedN p 8) L f B
        (marOut v (alignedN p 8 + (marOut k (alignedN p 8)).length) ++ rest)
        hwk hkk hdk (by rw [hltot] at hL; omega) hLB hfk
      have hv' := read_marOut v vt (alignedN p 8 + (marOut k (alignedN p 8)).length) L f B
        rest hwv hkv hdv (by rw [hltot] at hL; omega) hLB hfv
      simp only [readAny]
      rw [rAlign, if_neg (by show ¬ alignedN p 8 > L; rw [hltot] at hL; omega)]
      simp only [bind, Except.bind]
      rw [hk']
      simp only [bind, Except.bind]
      rw [hv']
      simp only [bind, Except.bind]
      rw [hltot]
      rw [show p + (alignPadding p 8 + ((marOut k (alignedN p 8)).length +
          (marOut v (alignedN p 8 + (marOut k (alignedN p 8)).length)).length)) =
        alignedN p 8 + (marOut k (alignedN p 8)).length +
          (marOut v (alignedN p 8 + (marOut k (alignedN p 8)).length)).length by omega]
  | emptyV =>
    intro t p L fuel B rest hw hk hd hL hLB hf
    have ht := wt_empty hw
    subst ht
    cases fuel with
    | zero => simp [rdFuel] at hf
    | succ f =>
      simp only [readAny]
      simp [marOut]
  | appendV xs x =>
    intro t p L fuel B rest hw hk hd hL hLB hf
    cases t <;> simp [wt] at hw
    case appendT xst xt =>
    obtain ⟨hwxs, hwx⟩ := hw
    rw [marOk] at hk
    simp only [Bool.and_eq_true] at hk
    obtain ⟨hkxs, hkx⟩ := hk
    cases fuel with
    | zero => simp [rdFuel] at hf
    | succ f =>
      have hfxs : rdFuel xs ≤ f := by
        rw [rdFuel] at hf
        omega
      have hfx : rdFuel x ≤ f := by
        rw [rdFuel] at hf
        omega
      have hmo : marOut (.appendV xs x) p =
          marOut xs p ++ marOut x (p + (marOut xs p).length) := by
        rw [marOut]
      have hltot : (marOut (.appendV xs x) p).length =
          (marOut xs p).length + (marOut x (p + (marOut xs p).length)).length := by
        rw [hmo]
        simp
      rw [hmo] at hd
      have hdxs : B.drop p = marOut xs p ++
          (marOut x (p + (marOut xs p).length) ++ rest) := by
        rw [hd]
        simp [List.append_assoc]
      have hdx := drop_chunk hd
      have hxs' := read_marOut xs xst p L f B
        (marOut x (p + (marOut xs p).length) ++ rest)
        hwxs hkxs hdxs (by rw [hltot] at hL; omega) hLB hfxs
      have hx' := read_marOut x xt (p + (marOut xs p).length) L f B rest
        hwx hkx hdx (by rw [hltot] at hL; omega) hLB hfx
      simp only [readAny]
      rw [hxs']
      simp only [bind, Except.bind]
      rw [hx']
      simp only [bind, Except.bind]
      rw [hltot]
      rw [show p + ((marOut xs p).length + (marOut x (p + (marOut xs p).length)).length) =
        p + (marOut xs p).length + (marOut x (p + (marOut xs p).length)).length by omega]
  | structV inner =>
    intro t p L fuel B rest hw hk hd hL hLB hf
    cases t <;> simp [wt] at hw
    case structT it =>
    rw [marOk] at hk
    cases fuel with
    | zero => simp [rdFuel] at hf
    | succ f =>
      have hfi : rdFuel inner ≤ f := by
        rw [rdFuel] at hf
        omega
      have hpad := alignPadding_add p 8 (by norm_num)
      have hmo : marOut (.structV inner) p =
          zro (alignPadding p 8) ++ marOut inner (alignedN p 8) := by
        rw [marOut]
      have hltot : (marOut (.structV inner) p).length =
          alignPadding p 8 + (marOut inner (alignedN p 8)).length := by
        rw [hmo]
        simp [zro_length]
      rw [hmo] at hd
      have hdi : B.drop (alignedN p 8) = marOut inner (alignedN p 8) ++ rest := by
        have h2 := @drop_chunk _ (zro (alignPadding p 8)) _ _ _ hd
        rw [zro_length] at h2
        rwa [hpad] at h2
      have hi' := read_marOut inner it (alignedN p 8) L f B rest
        hw hk hdi (by rw [hltot] at hL; omega) hLB hfi
      simp only [readAny]
      rw [rAlign, if_neg (by show ¬ alignedN p 8 > L; rw [hltot] at hL; omega)]
      simp only [bind, Except.bind]
      rw [hi']
      simp only [bind, Except.bind]
      rw [hltot]
      rw [show p + (alignPadding p 8 + (marOut inner (alignedN p 8)).length) =
        alignedN p 8 + (marOut inner (alignedN p 8)).length by omega]
  | arrayV tv elems =>
    intro t p L fuel B rest hw hk hd hL hLB hf
    cases t <;> simp [wt] at hw
    case arrayT et =>
    obtain ⟨⟨htv, hsi⟩, hwL⟩ := hw
    subst htv
    simp only [marOk, Bool.and_eq_true, decide_eq_true_eq] at hk
    obtain ⟨⟨hkL, hlen32⟩, hmatch⟩ := hk
    have hpz : elems = .nil ∨ tv.posSized = true := by
      cases elems with
      | nil => exact Or.inl rfl
      | cons a as => exact Or.inr (by simpa using hmatch)
    cases fuel with
    | zero => simp [rdFuel] at hf
    | succ f =>
      have hfL : rdFuelL elems ≤ f := by
        rw [rdFuel] at hf
        omega
      have hpad1 := alignPadding_add p 4 (by norm_num)
      have hpad2 := alignPadding_add (alignedN p 4 + 4) tv.alignment tv.alignment_pos
      have hmo : marOut (.arrayV tv elems) p =
          zro (alignPadding p 4) ++
            (leBytes (marOutL elems (alignedN (alignedN p 4 + 4) tv.alignment)).length 4 ++
              (zro (alignPadding (alignedN p 4 + 4) tv.alignment) ++
                marOutL elems (alignedN (alignedN p 4 + 4) tv.alignment))) := by
        rw [marOut]
      have hltot : (marOut (.arrayV tv elems) p).length =
          alignPadding p 4 + 4 + alignPadding (alignedN p 4 + 4) tv.alignment +
            (marOutL elems (alignedN (alignedN p 4 + 4) tv.alignment)).length := by
        rw [hmo]
        simp [zro_length, leBytes_length]
        omega
      rw [hmo] at hd
      have hd1 : B.drop p =
          (zro (alignPadding p 4) ++
            leBytes (marOutL elems (alignedN (alignedN p 4 + 4) tv.alignment)).length 4) ++
          ((zro (alignPadding (alignedN p 4 + 4) tv.alignment) ++
              marOutL elems (alignedN (alignedN p 4 + 4) tv.alignment)) ++ rest) := by
        rw [hd]
        simp [List.append_assoc]
      have hnum := rNum_eval 4 4
        (marOutL elems (alignedN (alignedN p 4 + 4) tv.alignment)).length hd1 rfl
        (by norm_num at hlen32 ⊢; omega)
        (by simp only [List.length_append, zro_length, leBytes_length]
            rw [hltot] at hL
            omega)
        hLB (by norm_num)
      have hc1 : p + (zro (alignPadding p 4) ++
          leBytes (marOutL elems (alignedN (alignedN p 4 + 4) tv.alignment)).length 4).length =
          alignedN p 4 + 4 := by
        simp only [List.length_append, zro_length, leBytes_length]
        omega
      rw [hc1] at hnum
      have hd2 := @drop_pref _ (zro (alignPadding p 4) ++
        leBytes (marOutL elems (alignedN (alignedN p 4 + 4) tv.alignment)).length 4) _ _ hd1
      rw [hc1] at hd2
      have hd3 := @drop_chunk _ (zro (alignPadding (alignedN p 4 + 4) tv.alignment)) _ _ _ hd2
      rw [zro_length, hpad2] at hd3
      have hrdL := readL_marOut elems tv (alignedN (alignedN p 4 + 4) tv.alignment) f B rest
        hwL hkL hsi hpz hd3 (by rw [hltot] at hL; omega) hfL
      simp only [readAny]
      rw [hnum]
      simp only [bind, Except.bind]
      rw [rAlign, if_neg (by
        show ¬ alignedN (alignedN p 4 + 4) tv.alignment > L
        rw [hltot] at hL
        omega)]
      simp only [bind, Except.bind]
      rw [rSeek, if_neg (by
        show ¬ alignedN (alignedN p 4 + 4) tv.alignment +
          (marOutL elems (alignedN (alignedN p 4 + 4) tv.alignment)).length > L
        rw [hltot] at hL
        omega)]
      simp only [bind, Except.bind]
      rw [hrdL]
      simp only [bind, Except.bind]
      rw [hltot]
      rw [show p + (alignPadding p 4 + 4 + alignPadding (alignedN p 4 + 4) tv.alignment +
          (marOutL elems (alignedN (alignedN p 4 + 4) tv.alignment)).length) =
        alignedN (alignedN p 4 + 4) tv.alignment +
          (marOutL elems (alignedN (alignedN p 4 + 4) tv.alignment)).length by omega]

theorem readL_marOut (es : ValueList) :
    ∀ (t : Ty) (p fuel : Nat) (B rest : List Nat),
      wtL t es = true → marOkL es p = true →
      t.single = true →
      (es = .nil ∨ t.posSized = true) →
      B.drop p = marOutL es p ++ rest →
      p + (marOutL es p).length ≤ B.length →
      rdFuelL es ≤ fuel →
      readAny fuel (.many t) ⟨B, p, p + (marOutL es p).length⟩ =
        .ok (.many es, ⟨B, p + (marOutL es p).length, p + (marOutL es p).length⟩) := by
  cases es with
  | nil =>
    intro t p fuel B rest hw hk hs hpz hd hLB hf
    cases fuel with
    | zero => simp [rdFuelL] at hf
    | succ f =>
      simp only [readAny]
      rw [show (marOutL .nil p).length = 0 by simp [marOutL]]
      rw [remaining_isEmpty (by simpa using hLB)]
      simp
  | cons x xs =>
    intro t p fuel B rest hw hk hs hpz hd hLB hf
    rw [wtL] at hw
    simp only [Bool.and_eq_true] at hw
    obtain ⟨hwx, hwxs⟩ := hw
    rw [marOkL] at hk
    simp only [Bool.and_eq_true] at hk
    obtain ⟨hkx, hkxs⟩ := hk
    have hposz : t.posSized = true := by
      rcases hpz with h | h
      · exact absurd h (by simp)
      · exact h
    cases fuel with
    | zero => simp [rdFuelL] at hf
    | succ f =>
      have hfx : rdFuel x ≤ f := by
        rw [rdFuelL] at hf
        omega
      have hfxs : rdFuelL xs ≤ f := by
        rw [rdFuelL] at hf
        omega
      have hha := headAlign_eq_alignment t x hwx hs
      have habs : marOut x p =
          zro (alignPadding p t.alignment) ++ marOut x (alignedN p t.alignment) := by
        rw [hha]
        exact marOut_headAlign x p
      have hxpos : 0 < (marOut x p).length := marOut_posSized x t hwx hposz p
      have hpad := alignPadding_add p t.alignment t.alignment_pos
      have hmoL : marOutL (.cons x xs) p =
          marOut x p ++ marOutL xs (p + (marOut x p).length) := by
        rw [marOutL]
      have hltot : (marOutL (.cons x xs) p).length =
          (marOut x p).length + (marOutL xs (p + (marOut x p).length)).length := by
        rw [hmoL]
        simp
      have hlx : (marOut x p).length =
          alignPadding p t.alignment + (marOut x (alignedN p t.alignment)).length := by
        rw [habs]
        simp [zro_length]
      rw [hmoL] at hd
      have hd0 : B.drop p = (zro (alignPadding p t.alignment) ++
          marOut x (alignedN p t.alignment)) ++
          (marOutL xs (p + (marOut x p).length) ++ rest) := by
        rw [hd, ← habs]
        simp [List.append_assoc]
      have hd0' : B.drop p = zro (alignPadding p t.alignment) ++
          (marOut x (alignedN p t.alignment) ++
            (marOutL xs (p + (marOut x p).length) ++ rest)) := by
        rw [hd0]
        simp [List.append_assoc]
      have hd1 : B.drop (alignedN p t.alignment) = marOut x (alignedN p t.alignment) ++
          (marOutL xs (p + (marOut x p).length) ++ rest) := by
        have h2 := drop_pref hd0'
        rw [zro_length] at h2
        rwa [hpad] at h2
      have hdpre : B.drop p = marOut x p ++
          (marOutL xs (p + (marOut x p).length) ++ rest) := by
        rw [hd]
        simp [List.append_assoc]
      have hdxs : B.drop (p + (marOut x p).length) =
          marOutL xs (p + (marOut x p).length) ++ rest := drop_pref hdpre
      have hend : p + (marOutL (.cons x xs) p).length =
          alignedN p t.alignment + (marOut x (alignedN p t.alignment)).length +
            (marOutL xs (p + (marOut x p).length)).length := by
        rw [hltot]
        omega
      have hkx2 : marOk x (alignedN p t.alignment) = true := by
        rw [hha, marOk_headAlign]
        exact hkx
      have hx' := read_marOut x t (alignedN p t.alignment)
        (p + (marOutL (.cons x xs) p).length) f B
        (marOutL xs (p + (marOut x p).length) ++ rest)
        hwx hkx2 hd1 (by rw [hltot]; omega) hLB hfx
      have hxs' := readL_marOut xs t (p + (marOut x p).length) f B rest
        hwxs hkxs hs (Or.inr hposz) hdxs (by rw [hltot] at hLB; omega) hfxs
      simp only [readAny]
      rw [remaining_isEmpty hLB]
      rw [if_neg (by
        simp only [decide_eq_true_eq]
        rw [hltot]
        omega)]
      rw [rAlign, if_neg (by
        show ¬ alignedN p t.alignment > p + (marOutL (.cons x xs) p).length
        rw [hltot]
        omega)]
      simp only [bind, Except.bind]
      rw [hx']
      simp only [bind, Except.bind]
      rw [show alignedN p t.alignment + (marOut x (alignedN p t.alignment)).length =
        p + (marOut x p).length by rw [hlx]; omega]
      rw [show p + (marOutL (.cons x xs) p).length =
        p + (marOut x p).length + (marOutL xs (p + (marOut x p).length)).length by
          rw [hltot]; omega]
      rw [hxs']
end

theorem marBytes_marOut (v : Value) : marBytes v = some (marOut v 0) := by
  unfold marBytes W.bytes
  have h := marV_marOut v w0
  rw [show (marV v w0).buf = List.map some (marOut v 0) by
    rw [h]
    rfl]
  simp [List.all_eq_true, List.map_map]
  have : ((fun x : Option Nat => x.getD 0) ∘ some) = id := by
    funext x
    rfl
  rw [this, List.map_id]

/-- C1 (amended): for every well-typed value `v` of a signature-bearing type
`T` whose length fields fit their wire encodings and whose arrays are not
non-empty arrays of zero-sized values (`marOk`), the span writer produces a
fully-initialised buffer of exactly `calc_size(v)` bytes, and `Reader::read`
at `T` decodes that buffer back to a value equal to `v`, consuming the whole
buffer. -/
theorem C1_roundtrip_amended (t : Ty) (v : Value)
    (hw : wt t v = true) (hk : marOk v 0 = true) :
    marBytes v = some (marOut v 0) ∧
    calcSize v = (marOut v 0).length ∧
    readV (rdFuel v) t (r0 (marOut v 0)) =
      .ok (.one v, ⟨marOut v 0, (marOut v 0).length, (marOut v 0).length⟩) := by
  refine ⟨marBytes_marOut v, ?_, ?_⟩
  · rw [calcSize, marC_marOut]
    omega
  · have h := read_marOut v t 0 (marOut v 0).length (rdFuel v) (marOut v 0) [] hw hk
      (by simp) (by simp) (by simp) (le_refl _)
    rw [readV, r0]
    simpa using h

/-- C1 witness: the amended round trip evaluated at the concrete dictionary
`[{2: 23}, {3: 24}]` of the source's own test. -/
theorem C1_roundtrip_amended_witness :
    wt (.arrayT (.entryT .i32T .u8T))
      (.arrayV (.entryT .i32T .u8T)
        (.cons (.entryV (.i32V 2) (.u8V 23))
          (.cons (.entryV (.i32V 3) (.u8V 24)) .nil))) = true ∧
    marOk (.arrayV (.entryT .i32T .u8T)
        (.cons (.entryV (.i32V 2) (.u8V 23))
          (.cons (.entryV (.i32V 3) (.u8V 24)) .nil))) 0 = true ∧
    (marBytes (.arrayV (.entryT .i32T .u8T)
        (.cons (.entryV (.i32V 2) (.u8V 23))
          (.cons (.entryV (.i32V 3) (.u8V 24)) .nil))) =
      some (marOut (.arrayV (.entryT .i32T .u8T)
        (.cons (.entryV (.i32V 2) (.u8V 23))
          (.cons (.entryV (.i32V 3) (.u8V 24)) .nil))) 0) ∧
    calcSize (.arrayV (.entryT .i32T .u8T)
        (.cons (.entryV (.i32V 2) (.u8V 23))
          (.cons (.entryV (.i32V 3) (.u8V 24)) .nil))) =
      (marOut (.arrayV (.entryT .i32T .u8T)
        (.cons (.entryV (.i32V 2) (.u8V 23))
          (.cons (.entryV (.i32V 3) (.u8V 24)) .nil))) 0).length ∧
    readV (rdFuel (.arrayV (.entryT .i32T .u8T)
        (.cons (.entryV (.i32V 2) (.u8V 23))
          (.cons (.entryV (.i32V 3) (.u8V 24)) .nil))))
      (.arrayT (.entryT .i32T .u8T))
      (r0 (marOut (.arrayV (.entryT .i32T .u8T)
        (.cons (.entryV (.i32V 2) (.u8V 23))
          (.cons (.entryV (.i32V 3) (.u8V 24)) .nil))) 0)) =
      .ok (.one (.arrayV (.entryT .i32T .u8T)
        (.cons (.entryV (.i32V 2) (.u8V 23))
          (.cons (.entryV (.i32V 3) (.u8V 24)) .nil))),
        ⟨marOut (.arrayV (.entryT .i32T .u8T)
          (.cons (.entryV (.i32V 2) (.u8V 23))
            (.cons (.entryV (.i32V 3) (.u8V 24)) .nil))) 0,
          (marOut (.arrayV (.entryT .i32T .u8T)
            (.cons (.entryV (.i32V 2) (.u8V 23))
              (.cons (.entryV (.i32V 3) (.u8V 24)) .nil))) 0).length,
          (marOut (.arrayV (.entryT .i32T .u8T)
            (.cons (.entryV (.i32V 2) (.u8V 23))
              (.cons (.entryV (.i32V 3) (.u8V 24)) .nil))) 0).length⟩)) :=
  ⟨by decide, by decide,
    C1_roundtrip_amended (.arrayT (.entryT .i32T .u8T))
      (.arrayV (.entryT .i32T .u8T)
        (.cons (.entryV (.i32V 2) (.u8V 23))
          (.cons (.entryV (.i32V 3) (.u8V 24)) .nil)))
      (by decide) (by decide)⟩

/-- C1 counterexample: the claim as stated fails on the code.  The non-empty
slice `[Struct(Empty), Struct(Empty)]` of the signature-bearing type
`&[Struct<Empty>]` is well typed and marshals to the 8-byte buffer
`[0,0,0,0, 0,0,0,0]` (length field 0, four padding bytes), but decoding that
buffer at the same type yields the empty array, not a value equal to the
input. -/
theorem C1_counterexample :
    wt (.arrayT (.structT .emptyT))
      (.arrayV (.structT .emptyT)
        (.cons (.structV .emptyV) (.cons (.structV .emptyV) .nil))) = true ∧
    marBytes (.arrayV (.structT .emptyT)
        (.cons (.structV .emptyV) (.cons (.structV .emptyV) .nil))) =
      some [0, 0, 0, 0, 0, 0, 0, 0] ∧
    calcSize (.arrayV (.structT .emptyT)
        (.cons (.structV .emptyV) (.cons (.structV .emptyV) .nil))) = 8 ∧
    readV 99 (.arrayT (.structT .emptyT)) (r0 [0, 0, 0, 0, 0, 0, 0, 0]) =
      .ok (.one (.arrayV (.structT .emptyT) .nil),
        ⟨[0, 0, 0, 0, 0, 0, 0, 0], 8, 8⟩) ∧
    (Value.arrayV (.structT .emptyT) .nil ≠
      Value.arrayV (.structT .emptyT)
        (.cons (.structV .emptyV) (.cons (.structV .emptyV) .nil))) := by
  refine ⟨by decide, by decide, by decide, by decide, by decide⟩

theorem marV_array_buf (t : Ty) (elems : ValueList) (s : W) :
    (marV (.arrayV t elems) s).buf =
      (s.buf ++ (zro (alignPadding s.pos 4)).map some) ++
        ((leBytes (marOutL elems
            (alignedN (alignedN s.pos 4 + 4) t.alignment)).length 4).map some ++
          ((zro (alignPadding (alignedN s.pos 4 + 4) t.alignment)).map some ++
            (marOutL elems (alignedN (alignedN s.pos 4 + 4) t.alignment)).map some)) := by
  rw [marV_marOut, marOut]
  simp [List.append_assoc]

/-- C3: when marshalling a slice as an array, the back-patched u32 counts
exactly the bytes from the position after the alignment padding (that
padding, emitted as zero bytes, is excluded) through the end of the last
element (inter-element padding is part of `marOutL` and hence included);
and the concrete example `[2u64]` marshals to length 8, four zero padding
bytes, then the eight element bytes. -/
theorem C3_array_length_field :
    (∀ (t : Ty) (elems : ValueList) (s : W),
      (marOutL elems (alignedN (alignedN s.pos 4 + 4) t.alignment)).length < 2 ^ 32 →
      (marV (.arrayV t elems) s).pos =
        alignedN (alignedN s.pos 4 + 4) t.alignment +
          (marOutL elems (alignedN (alignedN s.pos 4 + 4) t.alignment)).length ∧
      ((marV (.arrayV t elems) s).buf.drop (alignedN s.pos 4)).take 4 =
        (leBytes ((marV (.arrayV t elems) s).pos -
          alignedN (alignedN s.pos 4 + 4) t.alignment) 4).map some ∧
      leNat (leBytes ((marV (.arrayV t elems) s).pos -
          alignedN (alignedN s.pos 4 + 4) t.alignment) 4) =
        (marV (.arrayV t elems) s).pos -
          alignedN (alignedN s.pos 4 + 4) t.alignment ∧
      ((marV (.arrayV t elems) s).buf.drop (alignedN s.pos 4 + 4)).take
          (alignPadding (alignedN s.pos 4 + 4) t.alignment) =
        List.replicate (alignPadding (alignedN s.pos 4 + 4) t.alignment) (some 0)) ∧
    marBytes (.arrayV .u64T (.cons (.u64V 2) .nil)) =
      some [8, 0, 0, 0, 0, 0, 0, 0, 2, 0, 0, 0, 0, 0, 0, 0] := by
  constructor
  · intro t elems s hlen
    have hpad1 := alignPadding_add s.pos 4 (by norm_num)
    have hpad2 := alignPadding_add (alignedN s.pos 4 + 4) t.alignment t.alignment_pos
    have hbuf := marV_array_buf t elems s
    have hpos : (marV (.arrayV t elems) s).pos =
        alignedN (alignedN s.pos 4 + 4) t.alignment +
          (marOutL elems (alignedN (alignedN s.pos 4 + 4) t.alignment)).length := by
      rw [marV_pos, marOut]
      simp only [List.length_append, List.length_cons, zro_length, leBytes_length]
      omega
    have hlen1 : (s.buf ++ (zro (alignPadding s.pos 4)).map some).length =
        alignedN s.pos 4 := by
      simp only [List.length_append, List.length_map, zro_length, W.pos] at hpad1 ⊢
      omega
    have hdrop : (marV (.arrayV t elems) s).buf.drop (alignedN s.pos 4) =
        (leBytes (marOutL elems
            (alignedN (alignedN s.pos 4 + 4) t.alignment)).length 4).map some ++
          ((zro (alignPadding (alignedN s.pos 4 + 4) t.alignment)).map some ++
            (marOutL elems (alignedN (alignedN s.pos 4 + 4) t.alignment)).map some) := by
      rw [hbuf, ← hlen1, List.drop_left]
    refine ⟨hpos, ?_, ?_, ?_⟩
    · rw [hdrop, hpos, Nat.add_sub_cancel_left,
        List.take_append_of_le_length (by simp [leBytes_length]),
        List.take_of_length_le (by simp [leBytes_length])]
    · rw [hpos, Nat.add_sub_cancel_left, leNat_leBytes,
        Nat.mod_eq_of_lt (by norm_num at hlen ⊢; omega)]
    · have hdrop2 : (marV (.arrayV t elems) s).buf.drop (alignedN s.pos 4 + 4) =
          (zro (alignPadding (alignedN s.pos 4 + 4) t.alignment)).map some ++
            (marOutL elems (alignedN (alignedN s.pos 4 + 4) t.alignment)).map some := by
        have h2 : (marV (.arrayV t elems) s).buf.drop (alignedN s.pos 4 + 4) =
            ((marV (.arrayV t elems) s).buf.drop (alignedN s.pos 4)).drop 4 := by
          rw [List.drop_drop]
        rw [h2, hdrop, List.drop_append_of_le_length (by simp [leBytes_length]),
          show List.drop 4 ((leBytes (marOutL elems
            (alignedN (alignedN s.pos 4 + 4) t.alignment)).length 4).map some) = [] from
            List.drop_eq_nil_of_le (by simp [leBytes_length]),
          List.nil_append]
      rw [hdrop2, List.take_append_of_le_length (by simp [zro_length]),
        List.take_of_length_le (by simp [zro_length]), zro_map_some]
  · decide

/-- C3 witness: the length-field characterisation applied to the slice
`[2u64]` written into a fresh buffer. -/
theorem C3_array_length_field_witness :
    (marOutL (ValueList.cons (Value.u64V 2) .nil)
        (alignedN (alignedN (W.pos w0) 4 + 4) Ty.u64T.alignment)).length < 2 ^ 32 ∧
    (marV (.arrayV .u64T (.cons (.u64V 2) .nil)) w0).pos =
      alignedN (alignedN (W.pos w0) 4 + 4) Ty.u64T.alignment +
        (marOutL (ValueList.cons (Value.u64V 2) .nil)
          (alignedN (alignedN (W.pos w0) 4 + 4) Ty.u64T.alignment)).length :=
  ⟨by decide, (C3_array_length_field.1 .u64T (.cons (.u64V 2) .nil) w0 (by decide)).1⟩

/-! ## The signature-driven token iterator (`unmarshal/iter.rs`)

`SignatureIter` walks a signature byte string with an explicit nesting stack
(`ArrayVec<Nesting, 32>`) and an `array_depth` counter that suppresses token
emission inside an array's element-type declaration.  The byte cursor is an
index `pos` into the signature; `Nesting::Variant` carries the saved outer
signature cursor. -/

inductive Frame where
  | arr (start : Nat)
  | strct
  | entry (count : Nat)
  | variant (sig : List Nat) (pos : Nat)
  deriving DecidableEq, Repr

/-- `MAX_NESTING` from `iter.rs`. -/
def maxNesting : Nat := 32

/-- One token of the signature scan (`SignatureToken`): the kind byte and,
for arrays, the element-type substring. -/
structure SigTok where
  kind : Nat
  payload : List Nat
  deriving DecidableEq, Repr

/-- Result of one `SignatureIter::next` call: a token with the updated
cursor/stack/array-depth, an error, `EndOfIteration`, or fuel exhaustion
(model artifact, shown unreachable below). -/
inductive SigOut where
  | tok (t : SigTok) (pos : Nat) (stack : List Frame) (depth : Nat)
  | fail (e : Err) (pos : Nat) (stack : List Frame) (depth : Nat)
  | done
  | fuelOut
  deriving DecidableEq, Repr

/-- The error reported by a `sigStep` outcome, if any. -/
def SigOut.err : SigOut → Option Err
  | .fail e _ _ _ => some e
  | _ => none

/-- The thirteen value-bearing signature bytes (`y b n q i u x t d s o g v`). -/
def isValueByte (b : Nat) : Bool :=
  b = 121 || b = 98 || b = 110 || b = 113 || b = 105 || b = 117 || b = 120 ||
    b = 116 || b = 100 || b = 115 || b = 111 || b = 103 || b = 118

/-- The element-type substring of an array whose `a` byte sat at `ptr`,
running to the current cursor (`slice::from_ptr_range(ptr.add(1)..self.ptr)`). -/
def arrPayload (sig : List Nat) (ptr pos : Nat) : List Nat :=
  (sig.drop (ptr + 1)).take (pos - (ptr + 1))

/-- A pending call in the `SignatureIter` mutual recursion: `next` reads the
byte at the cursor, `atValue b` runs `at_value(b)` (cursor already past the
byte), `closeArray ptr` runs `close_array(ptr)`. -/
inductive SigReq where
  | next
  | atValue (b : Nat)
  | closeArray (ptr : Nat)
  deriving DecidableEq, Repr

/-- `SignatureIter::{next, at_value, close_array}` (`iter.rs`), merged into a
single fuel-indexed function so the mutual recursion stays structural. -/
def sigStep (sig : List Nat) : Nat → SigReq → Nat → List Frame → Nat → SigOut
  | 0, _, _, _, _ => .fuelOut
  | f + 1, req, pos, stack, depth =>
    match req with
    | .next =>
      if sig.length ≤ pos then
        match stack.head? with
        | none => .done
        | some (.variant _ _) => .done
        | some _ => .fail .nestingMismatched pos stack depth
      else
        let b := sig.getD pos 0
        if isValueByte b then sigStep sig f (.atValue b) (pos + 1) stack depth
        else if b = 97 then
          if stack.length < maxNesting then
            sigStep sig f .next (pos + 1) (.arr pos :: stack) (depth + 1)
          else .fail .nestingDepthExceeded (pos + 1) stack (depth + 1)
        else if b = 123 then
          if stack.length < maxNesting then
            if depth ≠ 0 then sigStep sig f .next (pos + 1) (.entry 0 :: stack) depth
            else .tok ⟨123, []⟩ (pos + 1) (.entry 0 :: stack) depth
          else .fail .nestingDepthExceeded (pos + 1) stack depth
        else if b = 40 then
          if stack.length < maxNesting then
            if depth ≠ 0 then sigStep sig f .next (pos + 1) (.strct :: stack) depth
            else .tok ⟨40, []⟩ (pos + 1) (.strct :: stack) depth
          else .fail .nestingDepthExceeded (pos + 1) stack depth
        else if b = 125 then
          match stack with
          | .entry c :: rest =>
            if c = 2 then sigStep sig f (.atValue 125) (pos + 1) rest depth
            else .fail .invalidEntrySize (pos + 1) rest depth
          | _ :: rest => .fail .nestingMismatched (pos + 1) rest depth
          | [] => .fail .nestingMismatched (pos + 1) [] depth
        else if b = 41 then
          match stack with
          | .strct :: rest => sigStep sig f (.atValue 41) (pos + 1) rest depth
          | _ :: rest => .fail .nestingMismatched (pos + 1) rest depth
          | [] => .fail .nestingMismatched (pos + 1) [] depth
        else .fail .signatureInvalidChar (pos + 1) stack depth
    | .atValue b =>
      match stack with
      | .arr ptr :: rest => sigStep sig f (.closeArray ptr) pos rest (depth - 1)
      | .entry c :: rest =>
        if c ≠ 2 then
          if depth = 0 then .tok ⟨b, []⟩ pos (.entry (c + 1) :: rest) depth
          else sigStep sig f .next pos (.entry (c + 1) :: rest) depth
        else .fail .invalidEntrySize pos (.entry c :: rest) depth
      | _ =>
        if depth = 0 then .tok ⟨b, []⟩ pos stack depth
        else sigStep sig f .next pos stack depth
    | .closeArray ptr =>
      match stack with
      | .arr ptr2 :: rest => sigStep sig f (.closeArray ptr2) pos rest (depth - 1)
      | .strct :: _ =>
        if depth ≠ 0 then sigStep sig f .next pos stack depth
        else .tok ⟨97, arrPayload sig ptr pos⟩ pos stack depth
      | .entry c :: rest =>
        if c = 2 then .fail .invalidEntrySize pos (.entry c :: rest) depth
        else
          if depth ≠ 0 then sigStep sig f .next pos (.entry (c + 1) :: rest) depth
          else .tok ⟨97, arrPayload sig ptr pos⟩ pos (.entry (c + 1) :: rest) depth
      | _ => .tok ⟨97, arrPayload sig ptr pos⟩ pos stack depth

def sigStepFuel (sig : List Nat) (pos : Nat) (stack : List Frame) : Nat :=
  2 * (sig.length - pos) + stack.length + 2

/-- Driving `SignatureIter::next` to the end of the signature, collecting the
emitted tokens; `none` means a fuel bound ran out (shown unreachable below). -/
def parseSigAux (sig : List Nat) : Nat → Nat → List Frame → Nat →
    Option (Except Err (List SigTok))
  | 0, _, _, _ => none
  | f + 1, pos, stack, depth =>
    match sigStep sig (sigStepFuel sig pos stack) .next pos stack depth with
    | .fuelOut => none
    | .fail e _ _ _ => some (.error e)
    | .done => some (.ok [])
    | .tok t pos' stack' depth' =>
      match parseSigAux sig f pos' stack' depth' with
      | none => none
      | some (.error e) => some (.error e)
      | some (.ok rest) => some (.ok (t :: rest))

/-- Parse a whole signature from a fresh iterator (`SignatureIter::new`). -/
def parseSig (sig : List Nat) : Option (Except Err (List SigTok)) :=
  parseSigAux sig (sig.length + 1) 0 [] 0

example : parseSig [97, 105, 105] = some (.ok [⟨97, [105]⟩, ⟨105, []⟩]) := by decide

example : parseSig [40, 40, 97, 105, 41, 41] =
    some (.ok [⟨40, []⟩, ⟨40, []⟩, ⟨97, [105]⟩, ⟨41, []⟩, ⟨41, []⟩]) := by decide

example : parseSig [97, 40, 97, 105, 105, 41] =
    some (.ok [⟨97, [40, 97, 105, 105, 41]⟩]) := by decide

example : parseSig [97, 97, 105] = some (.ok [⟨97, [97, 105]⟩]) := by decide

example : parseSig [123, 121, 121, 125] =
    some (.ok [⟨123, []⟩, ⟨121, []⟩, ⟨121, []⟩, ⟨125, []⟩]) := by decide

example : parseSig [123, 121, 121, 121, 125] = some (.error .invalidEntrySize) := by
  decide

example : parseSig [123, 121, 125] = some (.error .invalidEntrySize) := by decide

/-- Unfolding equation for `sigStep` at `.next` (the automatic equation
lemmas of the big match are impractically slow to generate). -/
theorem sigStep_next (sig : List Nat) (f pos : Nat) (stack : List Frame) (depth : Nat) :
    sigStep sig (f + 1) .next pos stack depth =
      (if sig.length ≤ pos then
        match stack.head? with
        | none => .done
        | some (.variant _ _) => .done
        | some _ => .fail .nestingMismatched pos stack depth
      else
        let b := sig.getD pos 0
        if isValueByte b then sigStep sig f (.atValue b) (pos + 1) stack depth
        else if b = 97 then
          if stack.length < maxNesting then
            sigStep sig f .next (pos + 1) (.arr pos :: stack) (depth + 1)
          else .fail .nestingDepthExceeded (pos + 1) stack (depth + 1)
        else if b = 123 then
          if stack.length < maxNesting then
            if depth ≠ 0 then sigStep sig f .next (pos + 1) (.entry 0 :: stack) depth
            else .tok ⟨123, []⟩ (pos + 1) (.entry 0 :: stack) depth
          else .fail .nestingDepthExceeded (pos + 1) stack depth
        else if b = 40 then
          if stack.length < maxNesting then
            if depth ≠ 0 then sigStep sig f .next (pos + 1) (.strct :: stack) depth
            else .tok ⟨40, []⟩ (pos + 1) (.strct :: stack) depth
          else .fail .nestingDepthExceeded (pos + 1) stack depth
        else if b = 125 then
          match stack with
          | .entry c :: rest =>
            if c = 2 then sigStep sig f (.atValue 125) (pos + 1) rest depth
            else .fail .invalidEntrySize (pos + 1) rest depth
          | _ :: rest => .fail .nestingMismatched (pos + 1) rest depth
          | [] => .fail .nestingMismatched (pos + 1) [] depth
        else if b = 41 then
          match stack with
          | .strct :: rest => sigStep sig f (.atValue 41) (pos + 1) rest depth
          | _ :: rest => .fail .nestingMismatched (pos + 1) rest depth
          | [] => .fail .nestingMismatched (pos + 1) [] depth
        else .fail .signatureInvalidChar (pos + 1) stack depth) := rfl

/-- Unfolding equation for `sigStep` at `.atValue`. -/
theorem sigStep_atValue (sig : List Nat) (f b pos : Nat) (stack : List Frame)
    (depth : Nat) :
    sigStep sig (f + 1) (.atValue b) pos stack depth =
      (match stack with
      | .arr ptr :: rest => sigStep sig f (.closeArray ptr) pos rest (depth - 1)
      | .entry c :: rest =>
        if c ≠ 2 then
          if depth = 0 then .tok ⟨b, []⟩ pos (.entry (c + 1) :: rest) depth
          else sigStep sig f .next pos (.entry (c + 1) :: rest) depth
        else .fail .invalidEntrySize pos (.entry c :: rest) depth
      | _ =>
        if depth = 0 then .tok ⟨b, []⟩ pos stack depth
        else sigStep sig f .next pos stack depth) := rfl

/-- Unfolding equation for `sigStep` at `.closeArray`. -/
theorem sigStep_closeArray (sig : List Nat) (f ptr pos : Nat) (stack : List Frame)
    (depth : Nat) :
    sigStep sig (f + 1) (.closeArray ptr) pos stack depth =
      (match stack with
      | .arr ptr2 :: rest => sigStep sig f (.closeArray ptr2) pos rest (depth - 1)
      | .strct :: _ =>
        if depth ≠ 0 then sigStep sig f .next pos stack depth
        else .tok ⟨97, arrPayload sig ptr pos⟩ pos stack depth
      | .entry c :: rest =>
        if c = 2 then .fail .invalidEntrySize pos (.entry c :: rest) depth
        else
          if depth ≠ 0 then sigStep sig f .next pos (.entry (c + 1) :: rest) depth
          else .tok ⟨97, arrPayload sig ptr pos⟩ pos (.entry (c + 1) :: rest) depth
      | _ => .tok ⟨97, arrPayload sig ptr pos⟩ pos stack depth) := rfl

/-- Fuel demanded by one pending `sigStep` call: each scanned byte costs at
most two calls, and unwinding the stack costs one call per frame. -/
def reqFuel (sig : List Nat) (req : SigReq) (pos : Nat) (stack : List Frame) : Nat :=
  2 * (sig.length - pos) + stack.length +
    (match req with
     | .next => 1
     | _ => 2)

theorem sig_fuel_ok (sig : List Nat) : ∀ (f : Nat) (req : SigReq) (pos : Nat)
    (stack : List Frame) (depth : Nat), reqFuel sig req pos stack ≤ f →
    sigStep sig f req pos stack depth ≠ .fuelOut := by
  intro f
  induction f with
  | zero =>
    intro req pos stack depth hf
    exfalso
    cases req <;> simp [reqFuel] at hf
  | succ f ih =>
    intro req pos stack depth hf h
    cases req with
    | next =>
      simp only [reqFuel] at hf
      rw [sigStep_next] at h
      by_cases hpos : sig.length ≤ pos
      · rw [if_pos hpos] at h
        split at h <;> simp at h
      · rw [if_neg hpos] at h
        rcases stack with _ | ⟨pt | _ | c | ⟨sg, sp⟩, rest⟩
        all_goals try simp at h
        all_goals try split_ifs at h
        all_goals exact ih _ _ _ _ (by simp only [reqFuel, List.length_cons] at hf ⊢; omega) h
    | atValue b =>
      simp only [reqFuel] at hf
      rw [sigStep_atValue] at h
      rcases stack with _ | ⟨pt | _ | c | ⟨sg, sp⟩, rest⟩
      all_goals try simp at h
      all_goals try split_ifs at h
      all_goals exact ih _ _ _ _ (by simp only [reqFuel, List.length_cons] at hf ⊢; omega) h
    | closeArray ptr =>
      simp only [reqFuel] at hf
      rw [sigStep_closeArray] at h
      rcases stack with _ | ⟨pt | _ | c | ⟨sg, sp⟩, rest⟩
      all_goals try simp at h
      all_goals try split_ifs at h
      all_goals exact ih _ _ _ _ (by simp only [reqFuel, List.length_cons] at hf ⊢; omega) h

/-- `sigStep` with no fuel. -/
theorem sigStep_zero (sig : List Nat) (req : SigReq) (pos : Nat) (stack : List Frame)
    (depth : Nat) : sigStep sig 0 req pos stack depth = .fuelOut := rfl

/-- Lower bound on the cursor after a pending call returns a token:
`next` consumes at least one byte; the other two never rewind. -/
def reqLB : SigReq → Nat → Nat
  | .next, pos => pos + 1
  | _, pos => pos

theorem sig_tok_progress (sig : List Nat) : ∀ (f : Nat) (req : SigReq) (pos : Nat)
    (stack : List Frame) (depth : Nat) (t : SigTok) (pos2 : Nat) (stack2 : List Frame)
    (depth2 : Nat), sigStep sig f req pos stack depth = .tok t pos2 stack2 depth2 →
    reqLB req pos ≤ pos2 ∧ (req = SigReq.next → pos < sig.length) := by
  intro f
  induction f with
  | zero =>
    intro req pos stack depth t pos2 stack2 depth2 h
    rw [sigStep_zero] at h
    simp at h
  | succ f ih =>
    intro req pos stack depth t pos2 stack2 depth2 h
    cases req with
    | next =>
      rw [sigStep_next] at h
      by_cases hpos : sig.length ≤ pos
      · rw [if_pos hpos] at h
        split at h <;> simp at h
      · rw [if_neg hpos] at h
        refine And.intro ?_ (fun _ => by omega)
        rcases stack with _ | ⟨pt | _ | c | ⟨sg, sp⟩, rest⟩
        all_goals try simp at h
        all_goals try split_ifs at h
        all_goals try simp at h
        all_goals first
          | (obtain ⟨h1, h2, h3, h4⟩ := h
             simp only [reqLB]
             omega)
          | (obtain ⟨h1, h2⟩ := ih _ _ _ _ _ _ _ _ h
             simp only [reqLB] at h1 ⊢
             omega)
    | atValue b =>
      rw [sigStep_atValue] at h
      refine And.intro ?_ (fun hq => nomatch hq)
      rcases stack with _ | ⟨pt | _ | c | ⟨sg, sp⟩, rest⟩
      all_goals try simp at h
      all_goals try split_ifs at h
      all_goals try simp at h
      all_goals first
        | (obtain ⟨h1, h2, h3, h4⟩ := h
           simp only [reqLB]
           omega)
        | (obtain ⟨h1, h2⟩ := ih _ _ _ _ _ _ _ _ h
           simp only [reqLB] at h1 ⊢
           omega)
    | closeArray ptr =>
      rw [sigStep_closeArray] at h
      refine And.intro ?_ (fun hq => nomatch hq)
      rcases stack with _ | ⟨pt | _ | c | ⟨sg, sp⟩, rest⟩
      all_goals try simp at h
      all_goals try split_ifs at h
      all_goals try simp at h
      all_goals first
        | (obtain ⟨h1, h2, h3, h4⟩ := h
           simp only [reqLB]
           omega)
        | (obtain ⟨h1, h2⟩ := ih _ _ _ _ _ _ _ _ h
           simp only [reqLB] at h1 ⊢
           omega)

/-- Unfolding equation for `parseSigAux` at positive fuel. -/
theorem parseSigAux_succ (sig : List Nat) (f pos : Nat) (stack : List Frame)
    (depth : Nat) :
    parseSigAux sig (f + 1) pos stack depth =
      (match sigStep sig (sigStepFuel sig pos stack) .next pos stack depth with
      | .fuelOut => none
      | .fail e _ _ _ => some (.error e)
      | .done => some (.ok [])
      | .tok t pos' stack' depth' =>
        match parseSigAux sig f pos' stack' depth' with
        | none => none
        | some (.error e) => some (.error e)
        | some (.ok rest) => some (.ok (t :: rest))) := rfl

theorem parseSigAux_ok (sig : List Nat) : ∀ (f pos : Nat) (stack : List Frame)
    (depth : Nat), sig.length - pos < f → parseSigAux sig f pos stack depth ≠ none := by
  intro f
  induction f with
  | zero =>
    intro pos stack depth hf
    exact absurd hf (Nat.not_lt_zero _)
  | succ f ih =>
    intro pos stack depth hf h
    rw [parseSigAux_succ] at h
    cases hstep : sigStep sig (sigStepFuel sig pos stack) .next pos stack depth with
    | fuelOut =>
      exact sig_fuel_ok sig _ .next pos stack depth
        (by simp only [reqFuel, sigStepFuel]; omega) hstep
    | fail e p2 s2 d2 => rw [hstep] at h; simp at h
    | done => rw [hstep] at h; simp at h
    | tok t pos2 stack2 depth2 =>
      simp only [hstep] at h
      obtain ⟨h1, h2⟩ := sig_tok_progress sig _ _ _ _ _ _ _ _ _ hstep
      have hlt : pos < sig.length := h2 rfl
      simp only [reqLB] at h1
      cases hrec : parseSigAux sig f pos2 stack2 depth2 with
      | none => exact ih pos2 stack2 depth2 (by omega) hrec
      | some r =>
        simp only [hrec] at h
        cases r <;> simp at h

/-- Static bracket-nesting depth of a signature: the maximal number of
simultaneously open `(`/`{` constructs over any prefix. -/
def bracketDepthAux : List Nat → Nat → Nat → Nat
  | [], _, m => m
  | b :: bs, cur, m =>
    if b = 40 || b = 123 then bracketDepthAux bs (cur + 1) (Nat.max m (cur + 1))
    else if b = 41 || b = 125 then bracketDepthAux bs (cur - 1) m
    else bracketDepthAux bs cur m

def maxBracketDepth (sig : List Nat) : Nat := bracketDepthAux sig 0 0

/-- C5: while the token iterator walks a signature, a dict entry must hold
exactly two values.  (i) Scanning a further value with the `Entry` counter
already at 2 fails with `InvalidEntrySize`; (ii) reading `}` while the
counter is not yet 2 fails with `InvalidEntrySize`; (iii) an array element
list closing onto an `Entry` counter already at 2 fails with
`InvalidEntrySize`. -/
theorem C5_entry_exactly_two (sig : List Nat) :
    (∀ (f b pos : Nat) (rest : List Frame) (depth : Nat),
        (sigStep sig (f + 1) (.atValue b) pos (.entry 2 :: rest) depth).err =
          some .invalidEntrySize) ∧
    (∀ (f c pos : Nat) (rest : List Frame) (depth : Nat),
        pos < sig.length → sig.getD pos 0 = 125 → c ≠ 2 →
        (sigStep sig (f + 1) .next pos (.entry c :: rest) depth).err =
          some .invalidEntrySize) ∧
    (∀ (f ptr pos : Nat) (rest : List Frame) (depth : Nat),
        (sigStep sig (f + 1) (.closeArray ptr) pos (.entry 2 :: rest) depth).err =
          some .invalidEntrySize) := by
  refine ⟨?_, ?_, ?_⟩
  · intro f b pos rest depth
    rw [sigStep_atValue]
    simp [SigOut.err]
  · intro f c pos rest depth hpos hb hc
    rw [sigStep_next, if_neg (by omega)]
    simp only [hb]
    norm_num [isValueByte]
    rw [if_neg hc]
    rfl
  · intro f ptr pos rest depth
    rw [sigStep_closeArray]
    simp [SigOut.err]

/-- Concrete instances of the three `InvalidEntrySize` guarantees of
`C5_entry_exactly_two`: a third value inside `{yyy`, a `}` after only one
value, and an array element list closing onto a full entry. -/
theorem C5_entry_exactly_two_witness :
    (sigStep [123, 121, 121, 121] 1 (.atValue 121) 4 [.entry 2] 0).err =
        some .invalidEntrySize ∧
      (sigStep [123, 121, 125] 1 .next 2 [.entry 1] 0).err = some .invalidEntrySize ∧
      (sigStep [97, 123, 121, 121, 125] 1 (.closeArray 0) 5 [.entry 2] 0).err =
        some .invalidEntrySize :=
  ⟨(C5_entry_exactly_two [123, 121, 121, 121]).1 0 121 4 [] 0,
    (C5_entry_exactly_two [123, 121, 125]).2.1 0 1 2 [] 0 (by decide) (by decide)
      (by decide),
    (C5_entry_exactly_two [97, 123, 121, 121, 125]).2.2 0 0 5 [] 0⟩

/-- C6 (amended): (i) whenever the scanner is at an opening construct
(`a`, `(` or `{`) with the nesting stack already holding `MAX_NESTING = 32`
frames, it fails with `NestingDepthExceeded`; (ii) signature parsing is
total: on every input the driver terminates with a token list or an error
(the fuel bounds of the model are never hit). -/
theorem C6_depth_cap_and_total :
    (∀ (sig : List Nat) (f pos : Nat) (stack : List Frame) (depth : Nat),
        maxNesting ≤ stack.length → pos < sig.length →
        (sig.getD pos 0 = 97 ∨ sig.getD pos 0 = 40 ∨ sig.getD pos 0 = 123) →
        (sigStep sig (f + 1) .next pos stack depth).err =
          some .nestingDepthExceeded) ∧
    (∀ sig : List Nat, parseSig sig ≠ none) := by
  constructor
  · intro sig f pos stack depth hstk hpos hb
    rw [sigStep_next, if_neg (by omega)]
    rcases hb with hb | hb | hb <;>
      · simp only [hb]
        norm_num [isValueByte]
        rw [if_neg (Nat.not_lt.mpr hstk)]
        rfl
  · intro sig
    exact parseSigAux_ok sig (sig.length + 1) 0 [] 0 (by omega)

/-- Concrete instances for `C6_depth_cap_and_total`: an `a` with 32 live
struct frames is rejected, and parsing the signature `i` terminates. -/
theorem C6_depth_cap_and_total_witness :
    (sigStep [97] 1 .next 0 (List.replicate 32 .strct) 0).err =
        some .nestingDepthExceeded ∧
      parseSig [105] ≠ none :=
  ⟨C6_depth_cap_and_total.1 [97] 0 0 (List.replicate 32 .strct) 0 (by decide)
      (by decide) (Or.inl (by decide)),
    C6_depth_cap_and_total.2 [105]⟩

/-- C6 counterexample: the signature `{}` followed by 33 `(` nests 33 > 32
levels of brackets, yet parsing fails with `InvalidEntrySize` (the malformed
entry is hit before the 33rd opening), not `NestingDepthExceeded`. -/
theorem C6_counterexample :
    maxNesting < maxBracketDepth ([123, 125] ++ List.replicate 33 40) ∧
      parseSig ([123, 125] ++ List.replicate 33 40) =
        some (.error .invalidEntrySize) := by
  decide

/-! ## The value-token iterator (`Iter` in `unmarshal/iter.rs`)

`Iter` pairs the signature scanner with a `Reader` over the data bytes and
turns each signature token into a value token, reading the corresponding
bytes.  `Nesting::Variant` frames save the outer signature iterator
(`mem::swap` in the `Variant` arm); an exhausted signature with a `Variant`
frame on top resumes the outer signature and emits `VariantClose`. -/

inductive Token where
  | byteTok (n : Nat)
  | boolTok (b : Bool)
  | i16Tok (n : Nat)
  | u16Tok (n : Nat)
  | i32Tok (n : Nat)
  | u32Tok (n : Nat)
  | i64Tok (n : Nat)
  | u64Tok (n : Nat)
  | f64Tok (n : Nat)
  | strTok (s : List Nat)
  | objTok (s : List Nat)
  | sigStrTok (s : List Nat)
  | arrayTok (sg : List Nat) (data : List Nat)
  | structOpen
  | structClose
  | entryOpen
  | entryClose
  | variantOpen
  | variantClose
  deriving DecidableEq, Repr

/-- The full iterator state: the data reader, the current signature bytes
and cursor, the nesting stack and the array depth. -/
structure It where
  rdr : R
  sig : List Nat
  spos : Nat
  stack : List Frame
  depth : Nat
  deriving DecidableEq, Repr

inductive IterOut where
  | tok (t : Token) (it : It)
  | fail (e : Err)
  | done
  | fuelOut
  deriving DecidableEq, Repr

/-- The element-type kinds for which the `Array` arm of `Iter::iter` does
`self.reader.seek(4)`: `U64 | I64 | F64 | StructOpen | EntryOpen`
(bytes `t x d ( {`). -/
def needs8 (b : Nat) : Bool :=
  b = 116 || b = 120 || b = 100 || b = 40 || b = 123

/-- One `Iter::iter` call.  The signature-scan error path mirrors the
`if let Ok(x) … else { pop }` in the source: any scan failure (including
plain end of signature) pops the nesting stack as the scan left it; a
`Variant` frame restores the saved signature and yields `VariantClose`, an
empty stack ends the iteration, and any other frame is the source's
`unreachable!()` (modelled as `modelUnreachable`).  `payload.get_unchecked(0)`
is modelled as `getD 0 0`. -/
def iterNext (it : It) : IterOut :=
  match sigStep it.sig (sigStepFuel it.sig it.spos it.stack) .next it.spos it.stack
      it.depth with
  | .fuelOut => .fuelOut
  | .done =>
    match it.stack with
    | .variant vsig vpos :: rest => .tok .variantClose ⟨it.rdr, vsig, vpos, rest, it.depth⟩
    | [] => .done
    | _ => .fail .modelUnreachable
  | .fail _ _ stack2 depth2 =>
    match stack2 with
    | .variant vsig vpos :: rest => .tok .variantClose ⟨it.rdr, vsig, vpos, rest, depth2⟩
    | [] => .done
    | _ => .fail .modelUnreachable
  | .tok t pos2 stack2 depth2 =>
    if t.kind = 121 then
      match rNum 1 1 it.rdr with
      | .error e => .fail e
      | .ok (n, r) => .tok (.byteTok n) ⟨r, it.sig, pos2, stack2, depth2⟩
    else if t.kind = 98 then
      match rNum 4 4 it.rdr with
      | .error e => .fail e
      | .ok (n, r) => .tok (.boolTok (n ≠ 0)) ⟨r, it.sig, pos2, stack2, depth2⟩
    else if t.kind = 110 then
      match rNum 2 2 it.rdr with
      | .error e => .fail e
      | .ok (n, r) => .tok (.i16Tok n) ⟨r, it.sig, pos2, stack2, depth2⟩
    else if t.kind = 113 then
      match rNum 2 2 it.rdr with
      | .error e => .fail e
      | .ok (n, r) => .tok (.u16Tok n) ⟨r, it.sig, pos2, stack2, depth2⟩
    else if t.kind = 105 then
      match rNum 4 4 it.rdr with
      | .error e => .fail e
      | .ok (n, r) => .tok (.i32Tok n) ⟨r, it.sig, pos2, stack2, depth2⟩
    else if t.kind = 117 then
      match rNum 4 4 it.rdr with
      | .error e => .fail e
      | .ok (n, r) => .tok (.u32Tok n) ⟨r, it.sig, pos2, stack2, depth2⟩
    else if t.kind = 120 then
      match rNum 8 8 it.rdr with
      | .error e => .fail e
      | .ok (n, r) => .tok (.i64Tok n) ⟨r, it.sig, pos2, stack2, depth2⟩
    else if t.kind = 116 then
      match rNum 8 8 it.rdr with
      | .error e => .fail e
      | .ok (n, r) => .tok (.u64Tok n) ⟨r, it.sig, pos2, stack2, depth2⟩
    else if t.kind = 100 then
      match rNum 8 8 it.rdr with
      | .error e => .fail e
      | .ok (n, r) => .tok (.f64Tok n) ⟨r, it.sig, pos2, stack2, depth2⟩
    else if t.kind = 115 then
      match nextStringLike it.rdr with
      | .error e => .fail e
      | .ok (str, r) => .tok (.strTok str) ⟨r, it.sig, pos2, stack2, depth2⟩
    else if t.kind = 111 then
      match nextStringLike it.rdr with
      | .error e => .fail e
      | .ok (str, r) => .tok (.objTok str) ⟨r, it.sig, pos2, stack2, depth2⟩
    else if t.kind = 103 then
      match readSigStr it.rdr with
      | .error e => .fail e
      | .ok (str, r) => .tok (.sigStrTok str) ⟨r, it.sig, pos2, stack2, depth2⟩
    else if t.kind = 97 then
      match rNum 4 4 it.rdr with
      | .error e => .fail e
      | .ok (len, r) =>
        match (if needs8 (t.payload.getD 0 0) then
                match rSeek r 4 with
                | .error e => Except.error e
                | .ok (_, r2) => Except.ok r2
               else Except.ok r) with
        | .error e => .fail e
        | .ok r =>
          match rBytes r len with
          | .error e => .fail e
          | .ok (data, r) =>
            .tok (.arrayTok t.payload data) ⟨r, it.sig, pos2, stack2, depth2⟩
    else if t.kind = 40 then
      match rAlign it.rdr 8 with
      | .error e => .fail e
      | .ok r => .tok .structOpen ⟨r, it.sig, pos2, stack2, depth2⟩
    else if t.kind = 123 then
      match rAlign it.rdr 8 with
      | .error e => .fail e
      | .ok r => .tok .entryOpen ⟨r, it.sig, pos2, stack2, depth2⟩
    else if t.kind = 41 then .tok .structClose ⟨it.rdr, it.sig, pos2, stack2, depth2⟩
    else if t.kind = 125 then .tok .entryClose ⟨it.rdr, it.sig, pos2, stack2, depth2⟩
    else if t.kind = 118 then
      match readSigStr it.rdr with
      | .error e => .fail e
      | .ok (sg, r) =>
        if stack2.length < maxNesting then
          .tok .variantOpen ⟨r, sg, 0, .variant it.sig pos2 :: stack2, depth2⟩
        else .fail .nestingDepthExceeded
    else .fail .modelUnreachable

/-- Driving `Iter::next` repeatedly, collecting the tokens it yields. -/
def iterRun : Nat → It → Except Err (List Token)
  | 0, _ => .error .outOfFuel
  | f + 1, it =>
    match iterNext it with
    | .fuelOut => .error .outOfFuel
    | .fail e => .error e
    | .done => .ok []
    | .tok t it2 =>
      match iterRun f it2 with
      | .error e => .error e
      | .ok ts => .ok (t :: ts)

/-- `Iter::new`. -/
def it0 (sig data : List Nat) : It := ⟨r0 data, sig, 0, [], 0⟩

example :
    iterRun 3 (it0 [97, 123, 121, 118, 125]
      ([34] ++ List.replicate 7 0 ++ [1, 1, 121, 0, 1, 0, 0, 0, 2, 1, 115] ++
        List.replicate 13 0 ++ [3, 4, 40, 121, 121, 41, 0, 0, 2, 4])) =
    .ok [.arrayTok [123, 121, 118, 125]
      ([1, 1, 121, 0, 1, 0, 0, 0, 2, 1, 115] ++ List.replicate 13 0 ++
        [3, 4, 40, 121, 121, 41, 0, 0, 2, 4])] := by decide

example :
    iterRun 4 (it0 [118] [1, 121, 0, 5]) =
      .ok [.variantOpen, .byteTok 5, .variantClose] := by decide

example :
    iterRun 9 (it0 [40, 121, 113, 41] [7, 0, 3, 1]) =
      .ok [.structOpen, .byteTok 7, .u16Tok 259, .structClose] := by decide

/-- The library's own encoding of a `u8` value 1 followed by the array
`[5u64]` (signature `yat`). -/
def c4Data : List Nat := [1, 0, 0, 0, 8, 0, 0, 0, 5, 0, 0, 0, 0, 0, 0, 0]

/-- C4: code bug in the `Array` arm of `Iter::iter`.  The buffer `c4Data`
is exactly what the library's marshaller emits for `(1u8, [5u64])` at
signature `yat`, yet iterating it fails with `NotEnoughData`: after the
array's u32 length the reader sits at offset 8, already 8-aligned, so the
claimed rule ("advance to the next multiple of 8, skipping 0 or 4 bytes")
would skip 0 bytes — third conjunct — but the code does an unconditional
`seek(4)` whenever the element alignment is 8, pushing the cursor to 12 and
leaving only 4 of the 8 payload bytes. -/
theorem C4_array_seek_bug :
    c4Data = marOut (.u8V 1) 0 ++ marOut (.arrayV .u64T (.cons (.u64V 5) .nil)) 1 ∧
      iterRun 3 (it0 [121, 97, 116] c4Data) = .error .notEnoughData ∧
      rAlign ⟨c4Data, 8, 16⟩ 8 = .ok ⟨c4Data, 8, 16⟩ := by decide

/-! ## The message layer (`message.rs`)

Header fields are a `u32`-length array of 8-aligned entries, each a `u8`
field id followed by a `Variant` whose signature is checked against the
type expected for that id.  `Message::unmarshal` reads the fixed prefix,
the fields, pads to 8 and carves the body. -/

structure FieldsM where
  path : Option (List Nat)
  interface : Option (List Nat)
  member : Option (List Nat)
  errorName : Option (List Nat)
  replySerial : Option Nat
  destination : Option (List Nat)
  sender : Option (List Nat)
  signature : Option (List Nat)
  unixFds : Option Nat
  deriving DecidableEq, Repr

def fieldsEmpty : FieldsM := ⟨none, none, none, none, none, none, none, none, none⟩

/-- A decoded header-field value (the `Field` union). -/
inductive FieldV where
  | obj (s : List Nat)
  | str (s : List Nat)
  | sig (s : List Nat)
  | num (n : Nat)
  deriving DecidableEq, Repr

/-- `Variant<&ObjectPath>::unmarshal`: signature blob must be `o`. -/
def readVariantObj (r : R) : Except Err (List Nat × R) := do
  let (sg, r) ← readSigStr r
  if sg = [111] then nextStringLike r else .error .unexpectedType

/-- `Variant<&String>::unmarshal`: signature blob must be `s`. -/
def readVariantStr (r : R) : Except Err (List Nat × R) := do
  let (sg, r) ← readSigStr r
  if sg = [115] then nextStringLike r else .error .unexpectedType

/-- `Variant<&Signature>::unmarshal`: signature blob must be `g`. -/
def readVariantSig (r : R) : Except Err (List Nat × R) := do
  let (sg, r) ← readSigStr r
  if sg = [103] then readSigStr r else .error .unexpectedType

/-- `Variant<u32>::unmarshal`: signature blob must be `u`. -/
def readVariantU32 (r : R) : Except Err (Nat × R) := do
  let (sg, r) ← readSigStr r
  if sg = [117] then rNum 4 4 r else .error .unexpectedType

structure EntryM where
  id : Nat
  fv : FieldV
  deriving DecidableEq, Repr

/-- `Entry::unmarshal` (the `define_fields!` expansion in `message.rs`):
read the `u8` field id, then the `Variant` of the type registered for that
id; any other id is `Err(Error::InvalidHeader)`. -/
def readEntry (r : R) : Except Err (EntryM × R) := do
  let (id, r) ← rNum 1 1 r
  if id = 1 then do
    let (v, r) ← readVariantObj r
    .ok (⟨1, .obj v⟩, r)
  else if id = 2 then do
    let (v, r) ← readVariantStr r
    .ok (⟨2, .str v⟩, r)
  else if id = 3 then do
    let (v, r) ← readVariantStr r
    .ok (⟨3, .str v⟩, r)
  else if id = 4 then do
    let (v, r) ← readVariantStr r
    .ok (⟨4, .str v⟩, r)
  else if id = 5 then do
    let (v, r) ← readVariantU32 r
    .ok (⟨5, .num v⟩, r)
  else if id = 6 then do
    let (v, r) ← readVariantStr r
    .ok (⟨6, .str v⟩, r)
  else if id = 7 then do
    let (v, r) ← readVariantStr r
    .ok (⟨7, .str v⟩, r)
  else if id = 8 then do
    let (v, r) ← readVariantSig r
    .ok (⟨8, .sig v⟩, r)
  else if id = 9 then do
    let (v, r) ← readVariantU32 r
    .ok (⟨9, .num v⟩, r)
  else .error .invalidHeader

/-- The per-id assignment in the `Fields::unmarshal` loop. -/
def applyEntry (f : FieldsM) (e : EntryM) : FieldsM :=
  match e.id, e.fv with
  | 1, .obj v => { f with path := some v }
  | 2, .str v => { f with interface := some v }
  | 3, .str v => { f with member := some v }
  | 4, .str v => { f with errorName := some v }
  | 5, .num v => { f with replySerial := some v }
  | 6, .str v => { f with destination := some v }
  | 7, .str v => { f with sender := some v }
  | 8, .sig v => { f with signature := some v }
  | 9, .num v => { f with unixFds := some v }
  | _, _ => f

/-- The `for x in iter` loop of `Fields::unmarshal`: while the carved
sub-reader is non-empty, align to 8 and read one entry. -/
def readFieldsLoop : Nat → FieldsM → R → Except Err FieldsM
  | 0, _, _ => .error .outOfFuel
  | fuel + 1, acc, r =>
    if r.remaining.isEmpty then .ok acc
    else do
      let r ← rAlign r 8
      let (e, r) ← readEntry r
      readFieldsLoop fuel (applyEntry acc e) r

/-- `Fields::unmarshal`: `ArrayIter<Entry>` (u32 length, align 8, carve)
driven to exhaustion. -/
def readFields (r : R) : Except Err (FieldsM × R) := do
  let (len, r) ← rNum 4 4 r
  let r ← rAlign r 8
  let (sub, radv) ← rSeek r len
  let f ← readFieldsLoop (len + 1) fieldsEmpty sub
  .ok (f, radv)

structure HeaderM where
  mtype : Nat
  flags : Nat
  serial : Nat
  fields : FieldsM
  deriving DecidableEq, Repr

structure MsgM where
  header : HeaderM
  args : List Nat
  deriving DecidableEq, Repr

/-- `Message::unmarshal` (`message.rs:365-393`), on a little-endian host:
endian byte (`l` accepted, `B` is `UnsupportedEndian`, others
`InvalidHeader`), message type 1..=4, flags, a version byte that is read
into `_version` and never checked, body length, non-zero serial, header
fields, padding to 8, then the body bytes. -/
def msgUnmarshal (r : R) : Except Err (MsgM × R) := do
  let (eb, r) ← rByte r
  if eb = 108 then do
    let (mt, r) ← rByte r
    if mt < 1 ∨ 4 < mt then .error .invalidHeader
    else do
      let (fl, r) ← rByte r
      let (_ver, r) ← rByte r
      let (argsLen, r) ← rNum 4 4 r
      let (serial, r) ← rNum 4 4 r
      if serial = 0 then .error .invalidHeader
      else do
        let (flds, r) ← readFields r
        let r ← rAlign r 8
        if argsLen ≤ r.remaining.length then
          .ok (⟨⟨mt, fl, serial, flds⟩, r.remaining.take argsLen⟩,
            ⟨r.buf, r.count + argsLen, r.len⟩)
        else .error .notEnoughData
  else if eb = 66 then .error .unsupportedEndian
  else .error .invalidHeader

example :
    readFields (r0 [13, 0, 0, 0, 0, 0, 0, 0, 7, 1, 115, 0, 4, 0, 0, 0, 58, 49, 46, 49, 0]) =
      .ok ({ fieldsEmpty with sender := some [58, 49, 46, 49] }, ⟨[13, 0, 0, 0, 0, 0,
        0, 0, 7, 1, 115, 0, 4, 0, 0, 0, 58, 49, 46, 49, 0], 21, 21⟩) := by decide

/-! ## The serial counter (`message/serial.rs`)

`Serial` wraps a `u32`; `next` does `self.0 += 1` (wrapping at `2^32` in
release builds) and stamps `NonZeroU32::new_unchecked(self.0)`.  Each of
the four factory helpers (`method_call`, `method_return`, `error`,
`signal`) calls `next` exactly once per produced message. -/

def serialStep (s : Nat) : Nat := (s + 1) % 2 ^ 32

inductive Helper where
  | methodCall
  | methodReturn
  | errorMsg
  | signal
  deriving DecidableEq, Repr

/-- The serials stamped into the messages produced by a sequence of factory
helper calls on a counter whose current raw value is `s`. -/
def runHelpers : List Helper → Nat → List Nat
  | [], _ => []
  | _ :: hs, s => serialStep s :: runHelpers hs (serialStep s)

/-- C7 (amended): an entry whose `u8` field code is not one of the nine
recognized codes makes `Entry::unmarshal` fail with `InvalidHeader` — the
`_ => {}` skip arm in the `Fields::unmarshal` loop is unreachable, so the
whole fields decode fails rather than skipping the entry. -/
theorem C7_unknown_field_errors (r r2 : R) (id : Nat)
    (h : rNum 1 1 r = .ok (id, r2)) (hid : id = 0 ∨ 10 ≤ id) :
    readEntry r = .error .invalidHeader := by
  simp only [readEntry, h, bind, Except.bind]
  repeat rw [if_neg (by omega)]

/-- Concrete instance of `C7_unknown_field_errors`: field code 10. -/
theorem C7_unknown_field_errors_witness :
    readEntry (r0 [10]) = .error .invalidHeader :=
  C7_unknown_field_errors (r0 [10]) ⟨[10], 1, 1⟩ 10 (by decide) (Or.inr (by decide))

/-- C7 counterexample: a fields array whose single entry has the unknown
code 10 is not skipped — decoding the fields fails with `InvalidHeader`. -/
theorem C7_counterexample :
    readFields (r0 [1, 0, 0, 0, 0, 0, 0, 0, 10]) = .error .invalidHeader := by decide

set_option maxRecDepth 10000 in
/-- C8 (amended): the protocol-version byte is read into `_version` and
never compared to anything, so a message is decoded successfully for every
value of its fourth byte; the claim that version ≠ 1 fails is false. -/
theorem C8_version_not_checked :
    ∀ v : Fin 256,
      msgUnmarshal (r0 [108, 1, 0, v.val, 0, 0, 0, 0, 1, 0, 0, 0, 0, 0, 0, 0]) =
        .ok (⟨⟨1, 0, 1, fieldsEmpty⟩, []⟩,
          ⟨[108, 1, 0, v.val, 0, 0, 0, 0, 1, 0, 0, 0, 0, 0, 0, 0], 16, 16⟩) := by
  decide

/-- C8 counterexample: a message whose protocol-version byte is 2 is
accepted by `Message::unmarshal`. -/
theorem C8_counterexample :
    msgUnmarshal (r0 [108, 1, 0, 2, 0, 0, 0, 0, 1, 0, 0, 0, 0, 0, 0, 0]) =
      .ok (⟨⟨1, 0, 1, fieldsEmpty⟩, []⟩,
        ⟨[108, 1, 0, 2, 0, 0, 0, 0, 1, 0, 0, 0, 0, 0, 0, 0], 16, 16⟩) := by decide

/-- C9 (amended): as long as the counter does not wrap past `2^32`, every
sequence of factory-helper calls stamps strictly increasing, non-zero,
in-range serials. -/
theorem C9_serials_strictly_increasing (hs : List Helper) :
    ∀ s : Nat, s + hs.length < 2 ^ 32 →
      List.Chain' (fun a b => a < b) (runHelpers hs s) ∧
      ∀ x ∈ runHelpers hs s, s < x ∧ x < 2 ^ 32 ∧ x ≠ 0 := by
  induction hs with
  | nil =>
    intro s h
    refine ⟨by simp [runHelpers], ?_⟩
    intro x hx
    simp [runHelpers] at hx
  | cons hd tl ih =>
    intro s h
    have hlen : s + (tl.length + 1) < 2 ^ 32 := by simpa [List.length_cons] using h
    have hstep : serialStep s = s + 1 := Nat.mod_eq_of_lt (by omega)
    have hrun : runHelpers (hd :: tl) s = (s + 1) :: runHelpers tl (s + 1) := by
      rw [runHelpers, hstep]
    obtain ⟨ihc, ihm⟩ := ih (s + 1) (by omega)
    rw [hrun]
    constructor
    · refine List.chain'_cons'.mpr ⟨?_, ihc⟩
      intro b hb
      exact (ihm b (List.mem_of_mem_head? hb)).1
    · intro x hx
      rcases List.mem_cons.mp hx with rfl | hx
      · exact ⟨by omega, by omega, by omega⟩
      · obtain ⟨h1, h2, h3⟩ := ihm x hx
        exact ⟨by omega, h2, h3⟩

/-- Concrete instance of `C9_serials_strictly_increasing`: two helper calls
from a fresh counter stamp the serials 1 and 2. -/
theorem C9_serials_strictly_increasing_witness :
    List.Chain' (fun a b => a < b) (runHelpers [Helper.methodCall, Helper.signal] 0) ∧
      ∀ x ∈ runHelpers [Helper.methodCall, Helper.signal] 0,
        0 < x ∧ x < 2 ^ 32 ∧ x ≠ 0 :=
  C9_serials_strictly_increasing [Helper.methodCall, Helper.signal] 0 (by decide)

/-- C9 counterexample: `Serial::from_raw(u32::MAX)` followed by one factory
call stamps the serial 0 (`self.0 += 1` wraps, and
`NonZeroU32::new_unchecked(0)` breaks the type's invariant), refuting
"strictly increasing and never zero" without a no-wrap proviso. -/
theorem C9_counterexample :
    runHelpers [.methodCall] (2 ^ 32 - 1) = [0] := by decide

/-- C10: code bug in `Reader::next_string_like` (and the `&Signature`
unmarshaller): after the length-checked read of the string bytes, the NUL
sentinel is skipped with `seek_unchecked(len + 1)` and no bound check, so a
string (or signature) whose sentinel would lie past the end of the buffer
leaves the cursor at `count > len` — on the 5-byte buffer `01 00 00 00 41`
a `&String` read succeeds and leaves `count = 6 > len = 5`, and on `01 41`
a `&Signature` read succeeds and leaves `count = 3 > len = 2`.  In the Rust
code `remaining()` then computes the slice length as `len - count` in
`usize`, which underflows. -/
theorem C10_cursor_overrun :
    nextStringLike (r0 [1, 0, 0, 0, 65]) = .ok ([65], ⟨[1, 0, 0, 0, 65], 6, 5⟩) ∧
      ¬ (6 ≤ (r0 [1, 0, 0, 0, 65]).len) ∧
      readSigStr (r0 [1, 65]) = .ok ([65], ⟨[1, 65], 3, 2⟩) ∧
      ¬ (3 ≤ (r0 [1, 65]).len) := by decide

example : readV 9 .u16T (r0 [1, 0]) = .ok (.one (.u16V 1), ⟨[1, 0], 2, 2⟩) := by decide

example : readV 9 (.arrayT .u64T) (r0 [8, 0, 0, 0, 0, 0, 0, 0, 2, 0, 0, 0, 0, 0, 0, 0]) =
    .ok (.one (.arrayV .u64T (.cons (.u64V 2) .nil)),
      ⟨[8, 0, 0, 0, 0, 0, 0, 0, 2, 0, 0, 0, 0, 0, 0, 0], 16, 16⟩) := by decide

end DBus
